import Mathlib

/-!
Verification development for the eth-provider IPC client engine.

Byte streams are modelled as `List Nat` (one `Nat` per byte, values < 256 in
all concrete inputs; the development only relies on exact byte values such as
10, 34, 92, 123, 125).  JavaScript `Buffer`/string operations are modelled at
the byte level, which coincides with the JS string level on the ASCII inputs
all claims are about.  Parsed JSON messages are represented by their raw byte
strings: `JSON.parse` is deterministic, so two runs deliver the same decoded
message sequences iff they deliver the same raw byte strings, and a message is
delivered iff `JSON.parse` accepts it, modelled by the recogniser `jsonOk`.
-/

/-- Whitespace set used by `JSONParser.isWhitespace` in json-parser.js
(space, tab, newline, carriage return). -/
def isWhitespaceByte (b : Nat) : Bool :=
  b = 32 || b = 9 || b = 10 || b = 13

/-- ASCII whitespace removed by JavaScript `String.prototype.trim`
(tab, LF, VT, FF, CR, space). -/
def jsTrimWs (b : Nat) : Bool :=
  b = 9 || b = 10 || b = 11 || b = 12 || b = 13 || b = 32

/-- Model of `String.prototype.trim` on ASCII byte strings. -/
def trimBytes (bs : List Nat) : List Nat :=
  ((bs.dropWhile jsTrimWs).reverse.dropWhile jsTrimWs).reverse

/-- Model of JavaScript `str.split('\n')` at the byte level: splits on byte
10; always returns at least one (possibly empty) component, and a trailing
newline yields a trailing empty component. -/
def splitOnNL : List Nat → List (List Nat)
  | [] => [[]]
  | b :: rest =>
    if b = 10 then [] :: splitOnNL rest
    else
      match splitOnNL rest with
      | [] => [[b]]
      | l :: ls => (b :: l) :: ls

/-! ### Model of `JSON.parse` acceptance (recogniser for the JSON grammar)

`jsonOk bs` models whether JavaScript `JSON.parse` succeeds on the string with
bytes `bs`.  The recogniser follows the JSON grammar (RFC 8259): a JSON text
is optional whitespace, one value, optional whitespace.  The fuel argument is
a structural-recursion device; `length + 1` fuel always suffices because every
nested value consumes at least one byte. -/

/-- JSON grammar whitespace (space, tab, LF, CR). -/
def jsonWsByte (b : Nat) : Bool :=
  b = 32 || b = 9 || b = 10 || b = 13

def skipJsonWs (bs : List Nat) : List Nat := bs.dropWhile jsonWsByte

def isDigitByte (b : Nat) : Bool := 48 ≤ b && b ≤ 57

def isHexByte (b : Nat) : Bool :=
  (48 ≤ b && b ≤ 57) || (97 ≤ b && b ≤ 102) || (65 ≤ b && b ≤ 70)

/-- Recognise the remainder of a JSON string literal (after the opening
quote), returning the bytes after the closing quote. -/
def parseStringRest : List Nat → Option (List Nat)
  | [] => none
  | b :: bs =>
    if b = 34 then some bs
    else if b = 92 then
      match bs with
      | [] => none
      | e :: bs2 =>
        if e = 34 || e = 92 || e = 47 || e = 98 || e = 102 ||
            e = 110 || e = 114 || e = 116 then
          parseStringRest bs2
        else if e = 117 then
          match bs2 with
          | h1 :: h2 :: h3 :: h4 :: bs3 =>
            if isHexByte h1 && isHexByte h2 && isHexByte h3 && isHexByte h4 then
              parseStringRest bs3
            else none
          | _ => none
        else none
    else if b < 32 then none
    else parseStringRest bs

/-- Recognise one or more digits, returning the remainder. -/
def parseDigits1 (bs : List Nat) : Option (List Nat) :=
  match bs with
  | b :: r => if isDigitByte b then some (r.dropWhile isDigitByte) else none
  | [] => none

/-- Recognise the optional fraction part of a JSON number. -/
def parseFrac (bs : List Nat) : Option (List Nat) :=
  match bs with
  | 46 :: r => parseDigits1 r
  | _ => some bs

/-- Recognise the optional exponent part of a JSON number. -/
def parseExp (bs : List Nat) : Option (List Nat) :=
  match bs with
  | b :: r =>
    if b = 101 || b = 69 then
      match r with
      | c :: r2 => if c = 43 || c = 45 then parseDigits1 r2 else parseDigits1 r
      | [] => none
    else some bs
  | [] => some bs

/-- Recognise a JSON number, returning the remainder. -/
def parseNumber (bs : List Nat) : Option (List Nat) :=
  let bs1 := match bs with
    | 45 :: r => r
    | _ => bs
  match bs1 with
  | b :: r =>
    if b = 48 then (parseFrac r).bind parseExp
    else if isDigitByte b then (parseFrac (r.dropWhile isDigitByte)).bind parseExp
    else none
  | [] => none

/-- Check that `pre` is the literal continuation (for `true`/`false`/`null`). -/
def parseLit : List Nat → List Nat → Option (List Nat)
  | [], bs => some bs
  | p :: ps, b :: bs => if b = p then parseLit ps bs else none
  | _ :: _, [] => none

mutual

/-- Recognise one JSON value, returning the remainder. -/
def parseValue : Nat → List Nat → Option (List Nat)
  | 0, _ => none
  | fuel + 1, bs =>
    match bs with
    | [] => none
    | b :: r =>
      if b = 34 then parseStringRest r
      else if b = 123 then
        match skipJsonWs r with
        | 125 :: r2 => some r2
        | r1 => parseMembers fuel r1
      else if b = 91 then
        match skipJsonWs r with
        | 93 :: r2 => some r2
        | r1 => parseElements fuel r1
      else if b = 116 then parseLit [114, 117, 101] r
      else if b = 102 then parseLit [97, 108, 115, 101] r
      else if b = 110 then parseLit [117, 108, 108] r
      else if b = 45 || isDigitByte b then parseNumber bs
      else none

/-- Recognise object members starting at a member key, through the closing
brace, returning the remainder. -/
def parseMembers : Nat → List Nat → Option (List Nat)
  | 0, _ => none
  | fuel + 1, bs =>
    match bs with
    | 34 :: r =>
      match parseStringRest r with
      | none => none
      | some r2 =>
        match skipJsonWs r2 with
        | 58 :: r4 =>
          match parseValue fuel (skipJsonWs r4) with
          | none => none
          | some r5 =>
            match skipJsonWs r5 with
            | 44 :: r7 => parseMembers fuel (skipJsonWs r7)
            | 125 :: r7 => some r7
            | _ => none
        | _ => none
    | _ => none

/-- Recognise array elements through the closing bracket. -/
def parseElements : Nat → List Nat → Option (List Nat)
  | 0, _ => none
  | fuel + 1, bs =>
    match parseValue fuel bs with
    | none => none
    | some r =>
      match skipJsonWs r with
      | 44 :: r2 => parseElements fuel (skipJsonWs r2)
      | 93 :: r2 => some r2
      | _ => none

end

/-- Model of `JSON.parse` success on the byte string `bs`. -/
def jsonOk (bs : List Nat) : Bool :=
  match parseValue (bs.length + 1) (skipJsonWs bs) with
  | some rest => skipJsonWs rest = []
  | none => false

/-! ### The depth-counting scanner (`JSONParser.findCompleteJSON`)

State of the byte-by-byte loop of `findCompleteJSON` in json-parser.js:
brace depth, inside-string flag, escape flag and found-start flag. -/

structure ScanSt where
  bc : Int
  instr : Bool
  esc : Bool
  fs : Bool
  deriving DecidableEq, Repr

def scanInit : ScanSt := ⟨0, false, false, false⟩

/-- One iteration of the `findCompleteJSON` loop body for the cases where the
loop continues (the early return is handled by `doneStep`). -/
def scanStep (s : ScanSt) (b : Nat) : ScanSt :=
  if s.esc then { s with esc := false }
  else if b = 92 then { s with esc := true }
  else if b = 34 then { s with instr := !s.instr }
  else if s.instr then s
  else if b = 123 then { s with bc := s.bc + 1, fs := true }
  else if b = 125 && s.fs then { s with bc := s.bc - 1 }
  else s

/-- Whether the `findCompleteJSON` loop returns at this byte: an unescaped,
outside-string closing brace that brings the depth from 1 to 0 after the
object start was found. -/
def doneStep (s : ScanSt) (b : Nat) : Bool :=
  !s.esc && !s.instr && s.fs && s.bc = 1 && b = 125

/-- How the recorded `startPos` evolves: it is set at the first opening brace
found outside a string. -/
def spUpd (s : ScanSt) (sp i : Nat) (b : Nat) : Nat :=
  if !s.esc && !s.instr && b = 123 && !s.fs then i else sp

/-- The scanning loop of `findCompleteJSON` (json-parser.js, lines 147-180):
carries the scan state, the recorded object start `sp` and the absolute index
`i`; returns `(startPos, endOffset)` on completion. -/
def scanLoopSrc : ScanSt → Nat → Nat → List Nat → Option (Nat × Nat)
  | _, _, _, [] => none
  | s, sp, i, b :: bs =>
    if s.esc then scanLoopSrc { s with esc := false } sp (i + 1) bs
    else if b = 92 then scanLoopSrc { s with esc := true } sp (i + 1) bs
    else if b = 34 then scanLoopSrc { s with instr := !s.instr } sp (i + 1) bs
    else if s.instr then scanLoopSrc s sp (i + 1) bs
    else if b = 123 then
      scanLoopSrc { s with bc := s.bc + 1, fs := true }
        (if s.fs then sp else i) (i + 1) bs
    else if b = 125 && s.fs then
      if s.bc = 1 then some (sp, i + 1)
      else scanLoopSrc { s with bc := s.bc - 1 } sp (i + 1) bs
    else scanLoopSrc s sp (i + 1) bs

/-- Model of `JSONParser.findCompleteJSON` relative to the unprocessed tail of
the buffer (the source works with absolute offsets into `this.buffer`; the
scan state is re-initialised on every call, so only the tail matters).
Returns `(startPos, endOffset)` relative to `bs`. -/
def findCompleteJSON (bs : List Nat) : Option (Nat × Nat) :=
  let w := (bs.takeWhile isWhitespaceByte).length
  if bs.length ≤ w then none
  else scanLoopSrc scanInit w w (bs.drop w)

/-- First index at which the scan started in state `s` completes (relative). -/
def sbAux (s : ScanSt) : List Nat → Option Nat
  | [] => none
  | b :: bs =>
    if doneStep s b then some 0
    else (sbAux (scanStep s b) bs).map (· + 1)

/-- First completion index of the scanner on `bs` from the initial state. -/
def scanBoundary (bs : List Nat) : Option Nat :=
  sbAux scanInit bs

/-- A byte string that the depth-counting scanner recognises as exactly one
object: it starts with an opening brace and the scan completes precisely at
its last byte.  Every genuine JSON object (with no stray newline inside, as in
all wire messages) satisfies this. -/
def ObjScanOK (m : List Nat) : Prop :=
  m.head? = some 123 ∧ scanBoundary m = some (m.length - 1)

instance (m : List Nat) : Decidable (ObjScanOK m) := by
  unfold ObjScanOK; infer_instance

/-! ### The frame parser (`JSONParser`) -/

/-- The while-loop of `processBraceCounting`: repeatedly find a complete
object, collect it if `JSON.parse` accepts it (count an error otherwise), and
advance.  Returns (messages, consumed bytes, parse errors).  The loop always
advances by at least one byte, so `length + 1` fuel is never exhausted. -/
def braceLoop : Nat → List Nat → List (List Nat) × Nat × Nat
  | 0, _ => ([], 0, 0)
  | fuel + 1, bs =>
    if bs = [] then ([], 0, 0)
    else
      match findCompleteJSON bs with
      | none => ([], 0, 0)
      | some (sp, eo) =>
        let seg := (bs.drop sp).take (eo - sp)
        let r := braceLoop fuel (bs.drop eo)
        if jsonOk seg then (seg :: r.1, eo + r.2.1, r.2.2)
        else (r.1, eo + r.2.1, r.2.2 + 1)

/-- Model of `JSONParser.processBraceCounting`: returns (messages, consumed
bytes, parse errors); the caller drops the consumed bytes from the buffer. -/
def processBraceCounting (bs : List Nat) : List (List Nat) × Nat × Nat :=
  braceLoop (bs.length + 1) bs

/-- The line loop of `processNewlineSeparated` over all complete lines:
a line is trimmed; an empty line consumes one byte (its newline); otherwise
the line is decoded if `JSON.parse` accepts it (else a parse error) and
`byteLength(trimmed) + 1` bytes are counted as consumed — exactly as in the
source, including the fact that the count uses the trimmed length.
Returns (messages, processedBytes, parse errors). -/
def processLines : List (List Nat) → List (List Nat) × Nat × Nat
  | [] => ([], 0, 0)
  | l :: ls =>
    let t := trimBytes l
    let r := processLines ls
    if t.length = 0 then (r.1, 1 + r.2.1, r.2.2)
    else if jsonOk t then (t :: r.1, (t.length + 1) + r.2.1, r.2.2)
    else (r.1, (t.length + 1) + r.2.1, r.2.2 + 1)

/-- Model of `JSONParser.processNewlineSeparated`: split the buffer on
newlines, process every complete line (all but the last component), and drop
the processed bytes.  Returns (messages, new buffer, parse errors). -/
def processNewlineSeparated (buf : List Nat) :
    List (List Nat) × List Nat × Nat :=
  let r := processLines (splitOnNL buf).dropLast
  (r.1, buf.drop r.2.1, r.2.2)

/-- State of a `JSONParser` instance: the overflow bound (`bufferSize`), the
buffered not-yet-framed bytes, and the two counters the claims mention. -/
structure JSONParser where
  bufferSize : Nat
  buffer : List Nat
  parsedMessages : Nat
  parseErrors : Nat
  deriving DecidableEq, Repr

def initParser (bufferSize : Nat) : JSONParser :=
  ⟨bufferSize, [], 0, 0⟩

/-- The data-dependent part of `JSONParser.processData`: overflow guard,
concatenation, the newline-separated fast path (used when the buffer contains
a newline and taken when it yields at least one message), and the
brace-counting fallback.  Returns (messages, new buffer, new parse errors);
only `bufferSize` and the buffered bytes influence it. -/
def processDataCore (bufferSize : Nat) (buffer data : List Nat) :
    List (List Nat) × List Nat × Nat :=
  if bufferSize < buffer.length + data.length then ([], [], 1)
  else
    let buf := buffer ++ data
    if buf.contains 10 then
      let r := processNewlineSeparated buf
      if 0 < r.1.length then r
      else
        let b := processBraceCounting r.2.1
        (b.1, r.2.1.drop b.2.1, r.2.2 + b.2.2)
    else
      let b := processBraceCounting buf
      (b.1, buf.drop b.2.1, b.2.2)

/-- Model of `JSONParser.processData`: runs the core on the buffered bytes
and updates the buffer and the two counters (`updateParseMetrics`). -/
def processData (p : JSONParser) (data : List Nat) :
    List (List Nat) × JSONParser :=
  let r := processDataCore p.bufferSize p.buffer data
  (r.1, { p with buffer := r.2.1,
                 parsedMessages := p.parsedMessages + r.1.length,
                 parseErrors := p.parseErrors + r.2.2 })

/-- Feed a sequence of chunks, concatenating the delivered messages. -/
def processAll (p : JSONParser) (chunks : List (List Nat)) :
    List (List Nat) × JSONParser :=
  chunks.foldl (fun acc c =>
    let r := processData acc.2 c
    (acc.1 ++ r.1, r.2)) ([], p)

/-! ### Association-list model of JavaScript `Map`

A JS `Map` preserves insertion order; `set` on an existing key updates the
value in place (keeping the key's position), `set` on a new key appends, and
`delete` removes the entry. -/

def mapGet {α : Type} (m : List (String × α)) (k : String) : Option α :=
  match m with
  | [] => none
  | (k2, v) :: rest => if k2 = k then some v else mapGet rest k

def containsKey {α : Type} (m : List (String × α)) (k : String) : Bool :=
  (mapGet m k).isSome

def mapSet {α : Type} (m : List (String × α)) (k : String) (v : α) :
    List (String × α) :=
  match m with
  | [] => [(k, v)]
  | (k2, v2) :: rest =>
    if k2 = k then (k2, v) :: rest else (k2, v2) :: mapSet rest k v

def mapDelete {α : Type} (m : List (String × α)) (k : String) :
    List (String × α) :=
  match m with
  | [] => []
  | (k2, v2) :: rest =>
    if k2 = k then rest else (k2, v2) :: mapDelete rest k

/-! ### The response cache (`CacheManager`, cache-manager.js) -/

/-- JSON-RPC result values as stored in the cache.  `vnull` is the JSON
`null` value, which JavaScript cannot distinguish from the `null` that
`CacheManager.get` returns on a miss. -/
inductive RpcValue where
  | vnull
  | vstr (s : String)
  | vnum (n : Int)
  | vbool (b : Bool)
  deriving DecidableEq, Repr

structure CacheEntry where
  data : RpcValue
  timestamp : Nat
  ttl : Nat
  deriving DecidableEq, Repr

structure CacheManager where
  maxSize : Nat
  enabled : Bool
  cache : List (String × CacheEntry)
  accessTimes : List (String × Nat)
  hits : Nat
  misses : Nat
  evictions : Nat
  deriving DecidableEq, Repr

def initCache (maxSize : Nat) : CacheManager :=
  ⟨maxSize, true, [], [], 0, 0, 0⟩

/-- The fold of `evictLRU`'s scan for the least recently accessed key:
`oldestTime` starts at `Infinity`, so the first entry always becomes the
candidate, and later entries replace it only with a strictly smaller time. -/
def argminFirst (l : List (String × Nat)) : Option String :=
  (l.foldl (fun best kv =>
    match best with
    | none => some kv
    | some b => if kv.2 < b.2 then some kv else best) none).map (·.1)

/-- Model of `CacheManager.evictLRU`.  The source guards the deletion with
`if (oldestKey)`: in JavaScript both `null` and the empty string are falsy,
so a least-recently-used key equal to `""` is never evicted. -/
def CacheManager.evictLRU (c : CacheManager) : CacheManager :=
  if c.cache.length = 0 then c
  else
    match argminFirst c.accessTimes with
    | none => c
    | some k =>
      if k = "" then c
      else { c with cache := mapDelete c.cache k,
                    accessTimes := mapDelete c.accessTimes k,
                    evictions := c.evictions + 1 }

/-- Model of `CacheManager.get` at time `now`: miss (returns the JS `null`,
i.e. `vnull`) when disabled, absent or expired — an expired entry is deleted
on the spot; a hit updates the access time and re-inserts the entry at the
end of the map for recency. -/
def CacheManager.get (c : CacheManager) (key : String) (now : Nat) :
    RpcValue × CacheManager :=
  if !c.enabled then (.vnull, { c with misses := c.misses + 1 })
  else
    match mapGet c.cache key with
    | none => (.vnull, { c with misses := c.misses + 1 })
    | some e =>
      if e.ttl < now - e.timestamp then
        (.vnull, { c with cache := mapDelete c.cache key,
                          accessTimes := mapDelete c.accessTimes key,
                          misses := c.misses + 1 })
      else
        (e.data, { c with accessTimes := mapSet c.accessTimes key now,
                          cache := mapSet (mapDelete c.cache key) key e,
                          hits := c.hits + 1 })

/-- Model of `CacheManager.set` at time `now`: evict once if at capacity,
then store the entry and its access time. -/
def CacheManager.set (c : CacheManager) (key : String) (data : RpcValue)
    (ttl : Nat) (now : Nat) : CacheManager :=
  if !c.enabled then c
  else
    let c1 := if c.maxSize ≤ c.cache.length then c.evictLRU else c
    { c1 with cache := mapSet c1.cache key ⟨data, now, ttl⟩,
              accessTimes := mapSet c1.accessTimes key now }

/-- Model of `CacheManager.delete`. -/
def CacheManager.deleteKey (c : CacheManager) (key : String) : CacheManager :=
  { c with cache := mapDelete c.cache key,
           accessTimes := mapDelete c.accessTimes key }

/-- A user-level cache operation, for stating the capacity invariant. -/
inductive CacheOp where
  | opGet (key : String) (now : Nat)
  | opSet (key : String) (data : RpcValue) (ttl : Nat) (now : Nat)
  | opDelete (key : String)
  deriving DecidableEq, Repr

def CacheOp.key : CacheOp → String
  | .opGet k _ => k
  | .opSet k _ _ _ => k
  | .opDelete k => k

def runCacheOp (c : CacheManager) : CacheOp → CacheManager
  | .opGet k now => (c.get k now).2
  | .opSet k v ttl now => c.set k v ttl now
  | .opDelete k => c.deleteKey k

def runCacheOps (c : CacheManager) (ops : List CacheOp) : CacheManager :=
  ops.foldl runCacheOp c

/-! ### The request engine's cache routing (`IPCProvider.request`) -/

/-- The read-only method allow-list of `IPCProvider` (ipc-provider.js,
lines 61-88). -/
def readOnlyMethods : List String :=
  ["eth_blockNumber", "eth_getBlockByNumber", "eth_getBlockByHash",
   "eth_getBlockTransactionCountByNumber", "eth_getBlockTransactionCountByHash",
   "eth_getUncleCountByBlockNumber", "eth_getUncleCountByBlockHash",
   "eth_getUncleByBlockNumberAndIndex", "eth_getUncleByBlockHashAndIndex",
   "eth_getBalance", "eth_getCode", "eth_getTransactionCount",
   "eth_getStorageAt", "eth_getTransactionByHash", "eth_getTransactionReceipt",
   "eth_getTransactionByBlockNumberAndIndex",
   "eth_getTransactionByBlockHashAndIndex",
   "eth_gasPrice", "eth_feeHistory", "eth_maxPriorityFeePerGas",
   "eth_call", "eth_createAccessList",
   "eth_chainId", "net_version", "net_listening", "net_peerCount",
   "eth_protocolVersion", "eth_syncing", "eth_coinbase", "eth_mining",
   "eth_hashrate", "eth_accounts", "web3_clientVersion", "web3_sha3"]

/-- The cache key `method + ":" + JSON.stringify(params)`; the serialized
parameter list is abstracted as a string. -/
def cacheKeyOf (method paramsJson : String) : String :=
  method ++ ":" ++ paramsJson

/-- Model of the cache lookup at the start of `IPCProvider.request`
(ipc-provider.js, lines 184-191): for an allow-listed method, the request is
served from the cache iff the cached value is not (JS) `null`; `none` means
the engine proceeds to issue a wire request. -/
def requestCacheLookup (c : CacheManager) (method paramsJson : String)
    (now : Nat) : Option RpcValue × CacheManager :=
  if readOnlyMethods.contains method then
    let r := c.get (cacheKeyOf method paramsJson) now
    if r.1 ≠ .vnull then (some r.1, r.2) else (none, r.2)
  else (none, c)

/-! ### The batch processor's deduplication (`BatchProcessor.addRequest`)

Promises and resolver functions are modelled symbolically: each `addRequest`
call that enqueues creates batch item number `idx`, a promise `promiseOf idx`
and a resolver function `resolveFn idx`.  The source stores
`batchItem.resolve` in `pendingRequests` (`this.pendingRequests.set(requestKey,
batchItem.resolve)`) and returns the stored map value verbatim to a
deduplicated caller. -/

/-- What the dedup map stores for a key: the source stores the resolver
function of the queued batch item. -/
inductive DedupStored where
  | resolveFn (idx : Nat)
  deriving DecidableEq, Repr

/-- What a caller of `addRequest` receives. -/
inductive AddResult where
  | promiseOf (idx : Nat)
  | storedVal (v : DedupStored)
  deriving DecidableEq, Repr

structure BatchProcessorSt where
  normalQueue : List Nat
  pendingRequests : List (String × DedupStored)
  nextIdx : Nat
  deriving DecidableEq, Repr

def initBatch : BatchProcessorSt := ⟨[], [], 0⟩

/-- Model of `BatchProcessor.addRequest` with batching and deduplication
enabled, at normal priority, for a request with dedup key `key`
(batch-processor.js, lines 41-98): a key already in `pendingRequests` returns
the stored map value; otherwise a new batch item is queued, a fresh promise is
returned, and the item's resolver is stored in the dedup map. -/
def addRequest (st : BatchProcessorSt) (key : String) :
    AddResult × BatchProcessorSt :=
  match mapGet st.pendingRequests key with
  | some v => (.storedVal v, st)
  | none =>
    let idx := st.nextIdx
    (.promiseOf idx,
      { normalQueue := st.normalQueue ++ [idx],
        pendingRequests := mapSet st.pendingRequests key (.resolveFn idx),
        nextIdx := idx + 1 })

/-! ### The request engine's correlation table (`IPCProvider`)

Event-level model of the pending-request table (`this.pendingRequests`) and
of the resolve/reject invocations each call's promise receives.  Events are
the discrete occurrences on the provider's single execution context:
registering a request (post cache-miss, lines 193-222), one parsed inbound
message (lines 129-149), a request-timeout firing (lines 199-205), the
rejection delivered through `batchProcessor.addRequest(request).catch(reject)`
(line 211) when the batch write fails (`processBatch`'s catch calls
`item.reject`, lines 159-163) or the deduplicated return value is not
then-able, and `disconnect` (lines 242-247).  The log records the
reject/resolve invocations aimed at a call's promise, in order; the
caller-observable settlement is the first entry for its id (later
invocations are no-ops on an already-settled promise). -/

inductive Outcome where
  | resolved
  | rejectedProtocol
  | rejectedTimeout
  | rejectedBatch
  | rejectedDisconnected
  deriving DecidableEq, Repr

structure ProviderSt where
  pending : List Nat
  log : List (Nat × Outcome)
  deriving DecidableEq, Repr

def initProvider : ProviderSt := ⟨[], []⟩

inductive PEvent where
  | req (id : Nat)
  | resp (id : Option Nat) (isErr : Bool)
  | timeoutFire (id : Nat)
  | batchFail (id : Nat)
  | disconnect
  deriving DecidableEq, Repr

/-- One event step of the correlation table.  An inbound message settles the
matching pending call and removes its id; a message whose id is absent from
the table (or that has no id) changes nothing; a timeout firing is guarded by
table membership; a batch failure rejects the call through the
`.catch(reject)` of ipc-provider.js line 211, which — unlike every other
settle path — neither checks nor deletes the table entry and does not clear
the timeout (the runtime emits `batchFail id` only after `req id`);
`disconnect` rejects everything and clears the table. -/
def provStep (st : ProviderSt) : PEvent → ProviderSt
  | .req id => { st with pending := st.pending ++ [id] }
  | .resp none _ => st
  | .resp (some id) isErr =>
    if st.pending.contains id then
      { pending := st.pending.erase id,
        log := st.log ++ [(id, if isErr then .rejectedProtocol else .resolved)] }
    else st
  | .timeoutFire id =>
    if st.pending.contains id then
      { pending := st.pending.erase id,
        log := st.log ++ [(id, .rejectedTimeout)] }
    else st
  | .batchFail id =>
    { st with log := st.log ++ [(id, .rejectedBatch)] }
  | .disconnect =>
    { pending := [],
      log := st.log ++ st.pending.map (fun id => (id, .rejectedDisconnected)) }

def runProvider (st : ProviderSt) (es : List PEvent) : ProviderSt :=
  es.foldl provStep st

/-- Number of `req id` events in a trace (each id is a fresh uuid in the
source, so traces of interest have at most one per id). -/
def reqCount (es : List PEvent) (id : Nat) : Nat :=
  (es.filter (fun e => e = .req id)).length

/-- Number of settle events for `id` in the log. -/
def logCount (l : List (Nat × Outcome)) (id : Nat) : Nat :=
  (l.filter (fun p => p.1 = id)).length

/-! ### Reconnection with exponential backoff (`ConnectionManager`)

Model of `ConnectionManager.attemptReconnect` (ipc-provider.js, lines
798-837) during one reconnection episode with `autoReconnect` set and no
concurrent `disconnect`.  `outcomes` gives the success/failure of each
`connect()` attempt, `jitters` the successive values of
`Math.random() * 1000`. -/

structure ReconCfg where
  maxRetries : Nat
  retryDelay : Nat
  backoffMultiplier : Nat
  maxRetryDelay : Nat
  deriving DecidableEq, Repr

structure ReconRes where
  waits : List Nat
  attempts : Nat
  connected : Bool
  maxRetriesEmitted : Bool
  finalRetries : Nat
  deriving DecidableEq, Repr

/-- The retry loop: while `currentRetries < maxRetries`, increment the
counter, wait `currentDelay`, try to connect; on failure update the delay to
`min(currentDelay * backoffMultiplier + jitter, maxRetryDelay)` and emit
`maxRetriesReached` and stop when the counter is exhausted.  A successful
`connect()` resets the retry counter to zero (the `connect` handler). -/
def reconnectLoop (cfg : ReconCfg) :
    Nat → Nat → List Bool → List Nat → ReconRes
  | retries, _, [], _ => ⟨[], 0, false, false, retries⟩
  | retries, delay, ok :: outs, jitters =>
    if retries < cfg.maxRetries then
      if ok then ⟨[delay], 1, true, false, 0⟩
      else
        let delay2 := min (delay * cfg.backoffMultiplier + jitters.headD 0)
          cfg.maxRetryDelay
        if cfg.maxRetries ≤ retries + 1 then
          ⟨[delay], 1, false, true, retries + 1⟩
        else
          let r := reconnectLoop cfg (retries + 1) delay2 outs jitters.tail
          ⟨delay :: r.waits, r.attempts + 1, r.connected,
            r.maxRetriesEmitted, r.finalRetries⟩
    else ⟨[], 0, false, false, retries⟩

/-- The delay sequence the specification prescribes: `n` delays with
`delay_1 = d` and `delay_{i+1} = min(delay_i * backoffMultiplier + jitter_i,
maxRetryDelay)`. -/
def specDelays (cfg : ReconCfg) : Nat → Nat → List Nat → List Nat
  | 0, _, _ => []
  | n + 1, d, jitters =>
    d :: specDelays cfg n (min (d * cfg.backoffMultiplier + jitters.headD 0)
      cfg.maxRetryDelay) jitters.tail

/-! ### Stream notions for the framing claims -/

/-- The wire stream of newline-terminated messages. -/
def nlStream (ms : List (List Nat)) : List Nat :=
  (ms.map (fun m => m ++ [10])).flatten

/-- The wire stream of directly concatenated messages. -/
def catStream (ms : List (List Nat)) : List Nat := ms.flatten

/-- Byte position of the start of message `k` in the newline stream. -/
def posNL (ms : List (List Nat)) (k : Nat) : Nat :=
  (nlStream (ms.take k)).length

/-- Byte position of the start of message `k` in the concatenated stream. -/
def posCat (ms : List (List Nat)) (k : Nat) : Nat :=
  (catStream (ms.take k)).length

/-- Length of the next message after position `k` (0 at the end). -/
def nextLen (ms : List (List Nat)) (k : Nat) : Nat :=
  ((ms.drop k).headD []).length

/-- A wire message as all claims assume them: a valid JSON object
(`JSON.parse` accepts it), recognised as one complete object by the
depth-counting scanner exactly at its end, with no newline byte inside. -/
def ValidObj (m : List Nat) : Prop :=
  ObjScanOK m ∧ jsonOk m = true ∧ m.contains 10 = false

instance (m : List Nat) : Decidable (ValidObj m) := by
  unfold ValidObj; infer_instance

/-- Parser-state invariant while feeding the newline-terminated stream of
`ms`: `out` messages have been delivered and `buf` is buffered after `f` fed
bytes.  Either the engine sits just before the newline of message `k`
(having already delivered it via the brace-counting path), or it sits inside
(or just before) message `k+1`. -/
def InvNL (ms : List (List Nat)) (f : Nat) (out : List (List Nat))
    (buf : List Nat) : Prop :=
  ∃ k, k ≤ ms.length ∧ out = ms.take k ∧ f ≤ (nlStream ms).length ∧
    ((1 ≤ k ∧ f + 1 = posNL ms k ∧ buf = []) ∨
     (posNL ms k ≤ f ∧
      buf = ((nlStream ms).drop (posNL ms k)).take (f - posNL ms k) ∧
      f - posNL ms k ≤ nextLen ms k))

/-- Parser-state invariant while feeding the concatenated stream of `ms`:
`out` messages have been delivered and `buf` is a proper prefix of the next
message. -/
def InvCat (ms : List (List Nat)) (f : Nat) (out : List (List Nat))
    (buf : List Nat) : Prop :=
  ∃ k, k ≤ ms.length ∧ out = ms.take k ∧ f ≤ (catStream ms).length ∧
    posCat ms k ≤ f ∧
    buf = ((catStream ms).drop (posCat ms k)).take (f - posCat ms k) ∧
    (k = ms.length ∨ f - posCat ms k < nextLen ms k)

/-- The concrete stream refuting chunk-invariance of the frame parser: two
valid JSON objects directly concatenated, the second containing a newline as
internal JSON whitespace. -/
def cexStream : List Nat :=
  [123, 34, 97, 34, 58, 49, 125, 123, 34, 98, 34, 58, 10, 50, 125]

/-- The example message of the claim about string-internal braces:
the bytes of the 23-byte object with an unescaped closing brace inside a
string value. -/
def braceInStringExample : List Nat :=
  [123, 34, 105, 100, 34, 58, 49, 44, 34, 114, 101, 115, 117, 108, 116,
   34, 58, 34, 97, 125, 98, 34, 125]

/-- Well-formedness of a cache instance with capacity `C`: capacity and
enabled flag as configured, entry count bounded, no duplicate keys, the two
maps hold the same keys, and no key is the empty string (the one key that
JavaScript truthiness makes unevictable). -/
def CacheWF (C : Nat) (c : CacheManager) : Prop :=
  c.maxSize = C ∧ c.enabled = true ∧ c.cache.length ≤ C ∧
  (c.cache.map Prod.fst).Nodup ∧ (c.accessTimes.map Prod.fst).Nodup ∧
  (∀ k, containsKey c.cache k = containsKey c.accessTimes k) ∧
  (∀ k, k ∈ c.accessTimes.map Prod.fst → k ≠ "")

/-! ## Theorems -/

/-! ### Association-map lemmas -/

theorem mapGet_mapSet_self {α : Type} (m : List (String × α)) (k : String)
    (v : α) : mapGet (mapSet m k v) k = some v := by
  induction m with
  | nil => simp [mapSet, mapGet]
  | cons kv rest ih =>
    obtain ⟨k2, v2⟩ := kv
    by_cases h : k2 = k <;> simp [mapSet, mapGet, h, ih]

theorem mapGet_mapSet_ne {α : Type} (m : List (String × α)) (k k2 : String)
    (v : α) (h : k2 ≠ k) : mapGet (mapSet m k v) k2 = mapGet m k2 := by
  induction m with
  | nil => simp [mapSet, mapGet, Ne.symm h]
  | cons kv rest ih =>
    obtain ⟨k3, v3⟩ := kv
    by_cases h3 : k3 = k <;> by_cases h4 : k3 = k2 <;>
      simp_all [mapSet, mapGet]

theorem mem_keys_iff_containsKey {α : Type} (m : List (String × α))
    (k : String) : k ∈ m.map Prod.fst ↔ containsKey m k = true := by
  induction m with
  | nil => simp [containsKey, mapGet]
  | cons kv rest ih =>
    obtain ⟨k2, v2⟩ := kv
    by_cases h : k2 = k
    · simp [containsKey, mapGet, h]
    · simp [containsKey, mapGet, h, ih, Ne.symm h]

theorem mapGet_eq_none_of_not_mem {α : Type} (m : List (String × α))
    (k : String) (h : k ∉ m.map Prod.fst) : mapGet m k = none := by
  induction m with
  | nil => simp [mapGet]
  | cons kv rest ih =>
    obtain ⟨k2, v2⟩ := kv
    simp only [List.map_cons, List.mem_cons, not_or] at h
    simp [mapGet, Ne.symm h.1, ih h.2]

theorem mapGet_mapDelete_self {α : Type} (m : List (String × α)) (k : String)
    (hnd : (m.map Prod.fst).Nodup) : mapGet (mapDelete m k) k = none := by
  induction m with
  | nil => simp [mapDelete, mapGet]
  | cons kv rest ih =>
    obtain ⟨k2, v2⟩ := kv
    simp only [List.map_cons, List.nodup_cons] at hnd
    by_cases h : k2 = k
    · subst h
      simp only [mapDelete, if_pos rfl]
      exact mapGet_eq_none_of_not_mem rest k2 hnd.1
    · simp only [mapDelete, if_neg h, mapGet, if_neg h]
      exact ih hnd.2

theorem mapDelete_keys_sub {α : Type} (m : List (String × α)) (k : String) :
    ((mapDelete m k).map Prod.fst).Sublist (m.map Prod.fst) := by
  induction m with
  | nil => simp [mapDelete]
  | cons kv rest ih =>
    obtain ⟨k2, v2⟩ := kv
    by_cases h : k2 = k
    · simp only [mapDelete, if_pos h, List.map_cons]
      exact List.sublist_cons_self _ _
    · simp only [mapDelete, if_neg h, List.map_cons]
      exact ih.cons₂ k2

theorem mapDelete_keys_nodup {α : Type} (m : List (String × α)) (k : String)
    (hnd : (m.map Prod.fst).Nodup) : ((mapDelete m k).map Prod.fst).Nodup :=
  (mapDelete_keys_sub m k).nodup hnd

theorem mapSet_keys {α : Type} (m : List (String × α)) (k : String) (v : α) :
    (mapSet m k v).map Prod.fst =
      if containsKey m k then m.map Prod.fst else m.map Prod.fst ++ [k] := by
  induction m with
  | nil => simp [mapSet, containsKey, mapGet]
  | cons kv rest ih =>
    obtain ⟨k2, v2⟩ := kv
    by_cases h : k2 = k
    · subst h
      simp [mapSet, containsKey, mapGet]
    · simp only [mapSet, if_neg h, List.map_cons, containsKey, mapGet,
        if_neg h, ih]
      split <;> rfl

theorem mapSet_keys_nodup {α : Type} (m : List (String × α)) (k : String)
    (v : α) (hnd : (m.map Prod.fst).Nodup) :
    ((mapSet m k v).map Prod.fst).Nodup := by
  rw [mapSet_keys]
  split
  · exact hnd
  · next h =>
    have hmem : k ∉ m.map Prod.fst := by
      rw [mem_keys_iff_containsKey]
      simp_all
    simp [List.nodup_append, hmem, hnd]

theorem mapDelete_length_of_contains {α : Type} (m : List (String × α))
    (k : String) (h : containsKey m k = true) :
    (mapDelete m k).length + 1 = m.length := by
  induction m with
  | nil => simp [containsKey, mapGet] at h
  | cons kv rest ih =>
    obtain ⟨k2, v2⟩ := kv
    by_cases h2 : k2 = k
    · simp [mapDelete, h2]
    · simp only [containsKey, mapGet, if_neg h2] at h
      simp [mapDelete, h2, ih h]

theorem containsKey_mapSet_self {α : Type} (m : List (String × α))
    (k : String) (v : α) : containsKey (mapSet m k v) k = true := by
  simp [containsKey, mapGet_mapSet_self]

theorem mapSet_length {α : Type} (m : List (String × α)) (k : String)
    (v : α) :
    (mapSet m k v).length =
      if containsKey m k then m.length else m.length + 1 := by
  have := congrArg List.length (mapSet_keys m k v)
  simp only [List.length_map] at this
  rw [this]
  split <;> simp

theorem mapDelete_length_le {α : Type} (m : List (String × α)) (k : String) :
    (mapDelete m k).length ≤ m.length := by
  have := (mapDelete_keys_sub m k).length_le
  simpa using this

/-! ### Claim C5 -/

/-- C5: the depth-counting fallback never treats a brace occurring inside a
quoted JSON string as structural: a `{` or `}` byte encountered while the
scanner's inside-string flag is set (and not escaped) leaves the scan state —
in particular the brace depth and the found-start flag — unchanged and never
completes a message; and the single message with bytes
`123 34 105 100 34 58 49 44 34 114 101 115 117 108 116 34 58 34 97 125 98 34
125` (an object whose string value contains an unescaped closing brace) is
recognised as exactly one complete message with boundaries 0..23. -/
theorem C5_string_brace_not_structural :
    (∀ (s : ScanSt) (b : Nat), s.instr = true → s.esc = false →
      b = 123 ∨ b = 125 → scanStep s b = s ∧ doneStep s b = false) ∧
    findCompleteJSON braceInStringExample =
      some (0, braceInStringExample.length) ∧
    processBraceCounting braceInStringExample =
      ([braceInStringExample], braceInStringExample.length, 0) := by
  refine ⟨?_, by decide, by decide⟩
  intro s b h1 h2 hb
  rcases hb with rfl | rfl <;> simp [scanStep, doneStep, h1, h2]

theorem C5_witness :
    (⟨1, true, false, true⟩ : ScanSt).instr = true ∧
    (⟨1, true, false, true⟩ : ScanSt).esc = false ∧
    scanStep ⟨1, true, false, true⟩ 125 = ⟨1, true, false, true⟩ ∧
    doneStep ⟨1, true, false, true⟩ 125 = false :=
  ⟨rfl, rfl,
    (C5_string_brace_not_structural.1 ⟨1, true, false, true⟩ 125 rfl rfl
      (Or.inr rfl)).1,
    (C5_string_brace_not_structural.1 ⟨1, true, false, true⟩ 125 rfl rfl
      (Or.inr rfl)).2⟩

/-! ### Claim C8 -/

/-- C8: whenever appending the incoming bytes would make the buffered
not-yet-framed bytes exceed `bufferSize`, `processData` discards the whole
buffer (it becomes empty), reports the overflow as a recoverable parse error
(the error counter increments; no exception is thrown), delivers no messages
in that call, and afterwards behaves exactly like a freshly reset parser on
subsequent data. -/
theorem C8_buffer_overflow (p : JSONParser) (data : List Nat)
    (h : p.bufferSize < p.buffer.length + data.length) :
    processData p data =
      ([], { p with buffer := [], parseErrors := p.parseErrors + 1 }) ∧
    ∀ d2,
      (processData { p with buffer := [], parseErrors := p.parseErrors + 1 }
        d2).1 = (processData (initParser p.bufferSize) d2).1 := by
  constructor
  · simp [processData, processDataCore, h]
  · intro d2
    simp [processData, processDataCore, initParser]

theorem C8_witness :
    (4 : Nat) < 3 + 2 ∧
    processData ⟨4, [49, 50, 51], 0, 0⟩ [52, 53] = ([], ⟨4, [], 0, 1⟩) ∧
    (processData ⟨4, [], 0, 1⟩ [123, 125]).1 =
      (processData (initParser 4) [123, 125]).1 :=
  ⟨by decide,
    (C8_buffer_overflow ⟨4, [49, 50, 51], 0, 0⟩ [52, 53] (by decide)).1,
    (C8_buffer_overflow ⟨4, [49, 50, 51], 0, 0⟩ [52, 53] (by decide)).2
      [123, 125]⟩

/-! ### Claim C2 -/

/-- C2: the deduplication path of `BatchProcessor.addRequest` does not give
the second identical caller the first call's outcome.  On the failing input —
two requests with the same key issued while the first is still queued — the
first caller receives a fresh promise for batch item 0 and exactly one item
is enqueued (one wire transmission), but the dedup map stores the item's
resolver function (`pendingRequests.set(requestKey, batchItem.resolve)`), so
the second caller receives that raw resolver function instead of any promise,
contradicting the source's own annotation that the map holds promises. -/
theorem C2_dedup_returns_resolver :
    (addRequest initBatch "eth_call:[]").1 = .promiseOf 0 ∧
    (addRequest (addRequest initBatch "eth_call:[]").2 "eth_call:[]").1 =
      .storedVal (.resolveFn 0) ∧
    (∀ i, (addRequest (addRequest initBatch "eth_call:[]").2 "eth_call:[]").1 ≠
      .promiseOf i) ∧
    (addRequest (addRequest initBatch "eth_call:[]").2
      "eth_call:[]").2.normalQueue = [0] := by
  have h2 : (addRequest (addRequest initBatch "eth_call:[]").2
      "eth_call:[]").1 = .storedVal (.resolveFn 0) := by decide
  refine ⟨by decide, h2, ?_, by decide⟩
  intro i h
  rw [h2] at h
  exact AddResult.noConfusion h

/-! ### Claim C4 -/

/-- C4: when a pending call's timeout fires it is rejected with the
request-timeout outcome and its id is removed from the correlation table (and
is then no longer present); a response whose id is not in the table — in
particular one arriving after the timeout already fired — or that has no id
at all is dropped with no effect on the state and settles nothing. -/
theorem C4_timeout_then_drop (st : ProviderSt) (id : Nat) (isErr : Bool) :
    (st.pending.contains id = true →
      provStep st (.timeoutFire id) =
        { pending := st.pending.erase id,
          log := st.log ++ [(id, .rejectedTimeout)] }) ∧
    (st.pending.Nodup →
      (provStep st (.timeoutFire id)).pending.contains id = false) ∧
    (st.pending.contains id = false →
      provStep st (.resp (some id) isErr) = st) ∧
    provStep st (.resp none isErr) = st := by
  refine ⟨fun h => by
      have hm : id ∈ st.pending := by simpa using h
      simp [provStep, hm],
    fun hnd => ?_,
    fun h => by
      have hm : id ∉ st.pending := by simpa using h
      simp [provStep, hm],
    rfl⟩
  by_cases h : id ∈ st.pending
  · have hc : st.pending.contains id = true := by simpa using h
    simp only [provStep, hc, if_true]
    simpa using hnd.not_mem_erase
  · have hc : st.pending.contains id = false := by simpa using h
    simp [provStep, hc, h]

theorem C4_witness :
    ([7, 9] : List Nat).contains 7 = true ∧
    provStep ⟨[7, 9], []⟩ (.timeoutFire 7) =
      ⟨[9], [(7, .rejectedTimeout)]⟩ ∧
    ([7, 9] : List Nat).Nodup ∧
    (provStep ⟨[7, 9], []⟩ (.timeoutFire 7)).pending.contains 7 = false ∧
    ([9] : List Nat).contains 7 = false ∧
    provStep ⟨[9], [(7, .rejectedTimeout)]⟩ (.resp (some 7) false) =
      ⟨[9], [(7, .rejectedTimeout)]⟩ ∧
    provStep ⟨[9], [(7, .rejectedTimeout)]⟩ (.resp none false) =
      ⟨[9], [(7, .rejectedTimeout)]⟩ :=
  ⟨by decide,
    (C4_timeout_then_drop ⟨[7, 9], []⟩ 7 false).1 (by decide),
    by decide,
    (C4_timeout_then_drop ⟨[7, 9], []⟩ 7 false).2.1 (by decide),
    by decide,
    (C4_timeout_then_drop ⟨[9], [(7, .rejectedTimeout)]⟩ 7 false).2.2.1
      (by decide),
    (C4_timeout_then_drop ⟨[9], [(7, .rejectedTimeout)]⟩ 7 false).2.2.2⟩

/-! ### Cache lemmas and claims C6, C10 -/

theorem evictLRU_enabled (c : CacheManager) :
    c.evictLRU.enabled = c.enabled := by
  unfold CacheManager.evictLRU
  split
  · rfl
  · split
    · rfl
    · split
      · rfl
      · rfl

theorem evictLRU_keys_nodup (c : CacheManager)
    (hnd : (c.cache.map Prod.fst).Nodup) :
    (c.evictLRU.cache.map Prod.fst).Nodup := by
  unfold CacheManager.evictLRU
  split
  · exact hnd
  · split
    · exact hnd
    · split
      · exact hnd
      · exact mapDelete_keys_nodup _ _ hnd

theorem cache_set_shape (c : CacheManager) (k : String) (v : RpcValue)
    (ttl t0 : Nat) (hen : c.enabled = true) :
    c.set k v ttl t0 =
      { (if c.maxSize ≤ c.cache.length then c.evictLRU else c) with
        cache := mapSet
          (if c.maxSize ≤ c.cache.length then c.evictLRU else c).cache k
          ⟨v, t0, ttl⟩,
        accessTimes := mapSet
          (if c.maxSize ≤ c.cache.length then c.evictLRU else c).accessTimes
          k t0 } := by
  simp [CacheManager.set, hen]

/-- C6: for every key, value and ttl, `set` followed by `get` at most `ttl`
milliseconds later returns the stored value; a `get` strictly more than `ttl`
later returns the miss value and deletes the entry on the spot, so it no
longer occupies a cache slot (the entry count drops by one). -/
theorem C6_cache_ttl (c : CacheManager) (k : String) (v : RpcValue)
    (ttl t0 t1 : Nat) (hen : c.enabled = true) (ht : t0 ≤ t1)
    (hnd : (c.cache.map Prod.fst).Nodup) :
    (t1 - t0 ≤ ttl → ((c.set k v ttl t0).get k t1).1 = v) ∧
    (ttl < t1 - t0 →
      ((c.set k v ttl t0).get k t1).1 = .vnull ∧
      mapGet ((c.set k v ttl t0).get k t1).2.cache k = none ∧
      ((c.set k v ttl t0).get k t1).2.cache.length + 1 =
        (c.set k v ttl t0).cache.length) := by
  have hen2 : (if c.maxSize ≤ c.cache.length then c.evictLRU else c).enabled
      = true := by
    split
    · rw [evictLRU_enabled]; exact hen
    · exact hen
  have hnd2 : (((if c.maxSize ≤ c.cache.length then c.evictLRU else
      c).cache.map Prod.fst)).Nodup := by
    split
    · exact evictLRU_keys_nodup _ hnd
    · exact hnd
  rw [cache_set_shape c k v ttl t0 hen]
  constructor
  · intro hle
    have hnotexp : ¬ (⟨v, t0, ttl⟩ : CacheEntry).ttl < t1 -
        (⟨v, t0, ttl⟩ : CacheEntry).timestamp := by
      simpa using Nat.not_lt.mpr hle
    simp [CacheManager.get, hen2, mapGet_mapSet_self, hnotexp]
  · intro hexp
    have hexp2 : (⟨v, t0, ttl⟩ : CacheEntry).ttl < t1 -
        (⟨v, t0, ttl⟩ : CacheEntry).timestamp := by simpa using hexp
    have hndset : ((mapSet
        (if c.maxSize ≤ c.cache.length then c.evictLRU else c).cache k
        ⟨v, t0, ttl⟩).map Prod.fst).Nodup := mapSet_keys_nodup _ _ _ hnd2
    refine ⟨?_, ?_, ?_⟩
    · simp [CacheManager.get, hen2, mapGet_mapSet_self, hexp2]
    · simp [CacheManager.get, hen2, mapGet_mapSet_self, hexp2,
        mapGet_mapDelete_self _ _ hndset]
    · simp only [CacheManager.get, hen2, Bool.not_true, Bool.false_eq_true,
        if_false, mapGet_mapSet_self, hexp2, if_true]
      exact mapDelete_length_of_contains _ _ (containsKey_mapSet_self _ _ _)

theorem C6_witness :
    (initCache 10).enabled = true ∧ (2 : Nat) ≤ 7 ∧
    (((initCache 10).cache.map Prod.fst).Nodup) ∧
    (((initCache 10).set "k" (.vstr "v") 5 2).get "k" 7).1 = .vstr "v" ∧
    (((initCache 10).set "k" (.vstr "v") 3 2).get "k" 7).1 = .vnull ∧
    mapGet (((initCache 10).set "k" (.vstr "v") 3 2).get "k" 7).2.cache "k"
      = none ∧
    (((initCache 10).set "k" (.vstr "v") 3 2).get "k" 7).2.cache.length + 1
      = ((initCache 10).set "k" (.vstr "v") 3 2).cache.length :=
  ⟨rfl, by decide, by decide,
    (C6_cache_ttl (initCache 10) "k" (.vstr "v") 5 2 7 rfl (by decide)
      (by decide)).1 (by decide),
    ((C6_cache_ttl (initCache 10) "k" (.vstr "v") 3 2 7 rfl (by decide)
      (by decide)).2 (by decide)).1,
    ((C6_cache_ttl (initCache 10) "k" (.vstr "v") 3 2 7 rfl (by decide)
      (by decide)).2 (by decide)).2.1,
    ((C6_cache_ttl (initCache 10) "k" (.vstr "v") 3 2 7 rfl (by decide)
      (by decide)).2 (by decide)).2.2⟩

/-- C10 (implicit): `CacheManager.get` returns the same sentinel (JS `null`,
modelled `vnull`) for a genuine miss and for a stored `null` value, and the
request path's hit test is `cached !== null`; hence for an allow-listed
read-only method whose result is JSON `null`, the value is stored in the
cache, yet an identical call within the TTL is not served from the cache and
proceeds to a new wire request (`requestCacheLookup` yields `none`). -/
theorem C10_null_never_served_from_cache (c : CacheManager)
    (method pj : String) (ttl t0 t1 : Nat)
    (hm : readOnlyMethods.contains method = true)
    (hen : c.enabled = true) (ht : t0 ≤ t1) (hfresh : t1 - t0 ≤ ttl) :
    mapGet (c.set (cacheKeyOf method pj) .vnull ttl t0).cache
      (cacheKeyOf method pj) = some ⟨.vnull, t0, ttl⟩ ∧
    (requestCacheLookup (c.set (cacheKeyOf method pj) .vnull ttl t0)
      method pj t1).1 = none := by
  have hen2 : (if c.maxSize ≤ c.cache.length then c.evictLRU else c).enabled
      = true := by
    split
    · rw [evictLRU_enabled]; exact hen
    · exact hen
  rw [cache_set_shape c _ _ ttl t0 hen]
  have hnotexp : ¬ (⟨RpcValue.vnull, t0, ttl⟩ : CacheEntry).ttl < t1 -
      (⟨RpcValue.vnull, t0, ttl⟩ : CacheEntry).timestamp := by
    simpa using Nat.not_lt.mpr hfresh
  constructor
  · exact mapGet_mapSet_self _ _ _
  · simp only [requestCacheLookup, hm, CacheManager.get, hen2,
      Bool.not_true, Bool.false_eq_true, if_false, mapGet_mapSet_self,
      hnotexp, if_true, ne_eq, not_true_eq_false, reduceIte]

theorem C10_witness :
    readOnlyMethods.contains "eth_call" = true ∧
    (initCache 10).enabled = true ∧ (2 : Nat) ≤ 4 ∧ (4 : Nat) - 2 ≤ 5 ∧
    mapGet ((initCache 10).set (cacheKeyOf "eth_call" "[]") .vnull 5 2).cache
      (cacheKeyOf "eth_call" "[]") = some ⟨.vnull, 2, 5⟩ ∧
    (requestCacheLookup
      ((initCache 10).set (cacheKeyOf "eth_call" "[]") .vnull 5 2)
      "eth_call" "[]" 4).1 = none :=
  ⟨by decide, rfl, by decide, by decide,
    (C10_null_never_served_from_cache (initCache 10) "eth_call" "[]" 5 2 4
      (by decide) rfl (by decide) (by decide)).1,
    (C10_null_never_served_from_cache (initCache 10) "eth_call" "[]" 5 2 4
      (by decide) rfl (by decide) (by decide)).2⟩

/-! ### Claim C9 -/

theorem reconnectLoop_all_fail (cfg : ReconCfg) :
    ∀ (k retries d : Nat) (outs : List Bool) (jitters : List Nat),
      retries + k = cfg.maxRetries → 1 ≤ k → k ≤ outs.length →
      (∀ o ∈ outs, o = false) →
      reconnectLoop cfg retries d outs jitters =
        ⟨specDelays cfg k d jitters, k, false, true, cfg.maxRetries⟩ := by
  intro k
  induction k with
  | zero => omega
  | succ n ih =>
    intro retries d outs jitters hsum hpos hlen hfail
    match outs with
    | [] => simp at hlen
    | o :: outs2 =>
      have ho : o = false := hfail o (List.mem_cons_self o outs2)
      subst ho
      have hlt : retries < cfg.maxRetries := by omega
      by_cases hlast : cfg.maxRetries ≤ retries + 1
      · have hn : n = 0 := by omega
        subst hn
        simp only [reconnectLoop, hlt, if_true, Bool.false_eq_true,
          hlast, specDelays]
        have : retries + 1 = cfg.maxRetries := by omega
        simp [this, specDelays]
      · have hn : 1 ≤ n := by omega
        have := ih (retries + 1)
          (min (d * cfg.backoffMultiplier + jitters.headD 0)
            cfg.maxRetryDelay) outs2 jitters.tail (by omega) hn
          (by simpa using Nat.le_of_succ_le_succ hlen)
          (fun o ho => hfail o (List.mem_cons_of_mem _ ho))
        simp only [reconnectLoop, hlt, if_true, Bool.false_eq_true,
          hlast, if_false, this, specDelays]

/-- C9: during a reconnection episode in which every attempt fails, with the
jitter values drawn from [0, 1000), the engine makes exactly `maxRetries`
attempts; attempt `n` waits `delay_n` first, where `delay_1 = retryDelay` and
`delay_{n+1} = min(delay_n * backoffMultiplier + jitter_n, maxRetryDelay)`;
after the last failure it emits the max-retries-reached notification, is not
connected, and a further invocation of the reconnect loop (without an
explicit new `connect()` resetting the counter) performs zero attempts. -/
theorem C9_reconnection_backoff (cfg : ReconCfg) (outs : List Bool)
    (jitters : List Nat) (h1 : 1 ≤ cfg.maxRetries)
    (h2 : ∀ o ∈ outs, o = false) (h3 : cfg.maxRetries ≤ outs.length)
    (h4 : ∀ j ∈ jitters, j < 1000) :
    reconnectLoop cfg 0 cfg.retryDelay outs jitters =
      ⟨specDelays cfg cfg.maxRetries cfg.retryDelay jitters,
        cfg.maxRetries, false, true, cfg.maxRetries⟩ ∧
    ∀ (outs2 : List Bool) (jitters2 : List Nat),
      (reconnectLoop cfg cfg.maxRetries cfg.retryDelay outs2
        jitters2).attempts = 0 := by
  constructor
  · exact reconnectLoop_all_fail cfg cfg.maxRetries 0 cfg.retryDelay outs
      jitters (by omega) h1 h3 h2
  · intro outs2 jitters2
    match outs2 with
    | [] => rfl
    | o :: rest => simp [reconnectLoop]

theorem C9_witness :
    (1 : Nat) ≤ (⟨3, 100, 2, 10000⟩ : ReconCfg).maxRetries ∧
    (∀ o ∈ [false, false, false], o = false) ∧
    (⟨3, 100, 2, 10000⟩ : ReconCfg).maxRetries ≤
      ([false, false, false] : List Bool).length ∧
    (∀ j ∈ [5, 7, 9], j < 1000) ∧
    reconnectLoop ⟨3, 100, 2, 10000⟩ 0 100 [false, false, false] [5, 7, 9] =
      ⟨[100, 205, 417], 3, false, true, 3⟩ ∧
    (reconnectLoop ⟨3, 100, 2, 10000⟩ 3 100 [false] [0]).attempts = 0 :=
  ⟨by decide, by decide, by decide, by decide,
    by
      rw [(C9_reconnection_backoff ⟨3, 100, 2, 10000⟩ [false, false, false]
        [5, 7, 9] (by decide) (by decide) (by decide) (by decide)).1]
      decide,
    (C9_reconnection_backoff ⟨3, 100, 2, 10000⟩ [false, false, false]
      [5, 7, 9] (by decide) (by decide) (by decide) (by decide)).2
      [false] [0]⟩

/-! ### Provider correlation lemmas and claim C3 -/

theorem logCount_append (l1 l2 : List (Nat × Outcome)) (id : Nat) :
    logCount (l1 ++ l2) id = logCount l1 id + logCount l2 id := by
  simp [logCount, List.filter_append]

theorem reqCount_cons (e : PEvent) (es : List PEvent) (id : Nat) :
    reqCount (e :: es) id =
      (if e = .req id then 1 else 0) + reqCount es id := by
  simp only [reqCount, List.filter_cons]
  split <;> simp_all <;> omega

theorem reqCount_append (l1 l2 : List PEvent) (id : Nat) :
    reqCount (l1 ++ l2) id = reqCount l1 id + reqCount l2 id := by
  simp [reqCount, List.filter_append]

theorem logCount_map_self (l : List Nat) (o : Outcome) (id : Nat) :
    logCount (l.map fun i => (i, o)) id = l.count id := by
  induction l with
  | nil => simp [logCount]
  | cons i rest ih =>
    by_cases h : i = id <;>
      simp [logCount, List.count_cons, h, ih, List.filter_cons] <;>
      simp [logCount] at ih <;> omega

/-- C3: the settle path `batchProcessor.addRequest(request).catch(reject)`
(ipc-provider.js line 211) rejects a call without removing its id from
`pendingRequests` and without clearing its timeout: after a request is
registered and its batch write fails, the call has settled (its promise
received exactly one reject so far) yet its id is still present in the
correlation table, and it stays there until the request timeout fires —
which then deletes the id and invokes reject a second time (a no-op on the
already-settled promise).  This refutes the claim's conjunct that once a
call is resolved or rejected its id is no longer present in the table; by
contrast the matching-response, timeout and disconnect settle paths do
remove the id before settling. -/
theorem C3_reject_retains_id :
    (1, Outcome.rejectedBatch) ∈ (runProvider initProvider
      [PEvent.req 1, PEvent.batchFail 1]).log ∧
    logCount (runProvider initProvider
      [PEvent.req 1, PEvent.batchFail 1]).log 1 = 1 ∧
    (runProvider initProvider
      [PEvent.req 1, PEvent.batchFail 1]).pending.contains 1 = true ∧
    (runProvider initProvider
      [PEvent.req 1, PEvent.batchFail 1,
       PEvent.timeoutFire 1]).pending.contains 1 = false ∧
    logCount (runProvider initProvider
      [PEvent.req 1, PEvent.batchFail 1,
       PEvent.timeoutFire 1]).log 1 = 2 ∧
    (runProvider initProvider
      [PEvent.req 1, PEvent.batchFail 1, PEvent.timeoutFire 1]).log =
      [(1, Outcome.rejectedBatch), (1, Outcome.rejectedTimeout)] := by
  refine ⟨by decide, by decide, by decide, by decide, by decide, by decide⟩

/-! ### Claim C7: LRU eviction and capacity -/

theorem mapSet_fresh {α : Type} (m : List (String × α)) (k : String) (v : α)
    (h : containsKey m k = false) : mapSet m k v = m ++ [(k, v)] := by
  induction m with
  | nil => simp [mapSet]
  | cons kv rest ih =>
    obtain ⟨k2, v2⟩ := kv
    simp only [containsKey, mapGet] at h
    by_cases h2 : k2 = k
    · simp [h2] at h
    · simp only [mapSet, if_neg h2, List.cons_append, List.cons.injEq,
        true_and]
      exact ih (by simpa [containsKey, h2] using h)

theorem mapGet_mapDelete_ne {α : Type} (m : List (String × α))
    (k k2 : String) (h : k2 ≠ k) :
    mapGet (mapDelete m k) k2 = mapGet m k2 := by
  induction m with
  | nil => simp [mapDelete]
  | cons kv rest ih =>
    obtain ⟨k3, v3⟩ := kv
    by_cases h3 : k3 = k
    · subst h3
      simp [mapDelete, mapGet, Ne.symm h]
    · by_cases h4 : k3 = k2
      · subst h4
        simp [mapDelete, mapGet, h3, Ne.symm h]
      · simp [mapDelete, mapGet, h3, h4, ih]

theorem mapDelete_head {α : Type} (k : String) (v : α)
    (rest : List (String × α)) : mapDelete ((k, v) :: rest) k = rest := by
  simp [mapDelete]

theorem argminFirst_mem (l : List (String × Nat)) (k : String)
    (h : argminFirst l = some k) : k ∈ l.map Prod.fst := by
  have main : ∀ (l2 : List (String × Nat)) (acc : Option (String × Nat)),
      ∀ r ∈ l2.foldl (fun best kv =>
        match best with
        | none => some kv
        | some b => if kv.2 < b.2 then some kv else best) acc,
      r ∈ l2 ∨ ∃ a ∈ acc, r = a := by
    intro l2
    induction l2 with
    | nil => intro acc r hr; exact Or.inr ⟨r, hr, rfl⟩
    | cons kv rest ih =>
      intro acc r hr
      rcases ih _ r hr with h2 | ⟨a, ha, rfl⟩
      · exact Or.inl (List.mem_cons_of_mem _ h2)
      · match acc with
        | none =>
          simp only [Option.mem_def, Option.some.injEq] at ha
          subst ha
          exact Or.inl (List.mem_cons_self _ _)
        | some b2 =>
          simp only [Option.mem_def] at ha
          by_cases hlt : kv.2 < b2.2
          · rw [if_pos hlt, Option.some.injEq] at ha
            subst ha
            exact Or.inl (List.mem_cons_self _ _)
          · rw [if_neg hlt, Option.some.injEq] at ha
            subst ha
            exact Or.inr ⟨b2, rfl, rfl⟩
  simp only [argminFirst, Option.map_eq_some'] at h
  obtain ⟨kv, hkv, rfl⟩ := h
  rcases main l none kv (by simpa using hkv) with h2 | ⟨a, ha, rfl⟩
  · exact List.mem_map.mpr ⟨kv, h2, rfl⟩
  · simp at ha

theorem argminFirst_head (k0 : String) (t0 : Nat)
    (rest : List (String × Nat)) (hmin : ∀ kt ∈ rest, t0 ≤ kt.2) :
    argminFirst ((k0, t0) :: rest) = some k0 := by
  have main : ∀ (l2 : List (String × Nat)) (b : String × Nat),
      (∀ kt ∈ l2, b.2 ≤ kt.2) →
      l2.foldl (fun best kv =>
        match best with
        | none => some kv
        | some b => if kv.2 < b.2 then some kv else best) (some b) = some b := by
    intro l2
    induction l2 with
    | nil => intro b _; rfl
    | cons kv rest2 ih =>
      intro b hb
      have h1 : ¬ kv.2 < b.2 :=
        Nat.not_lt.mpr (hb kv (List.mem_cons_self _ _))
      simp only [List.foldl_cons, if_neg h1]
      exact ih b (fun kt hkt => hb kt (List.mem_cons_of_mem _ hkt))
  simp only [argminFirst, List.foldl_cons]
  rw [main rest (k0, t0) hmin]
  rfl

theorem cache_fill (ttl : Nat) :
    ∀ (l : List (String × Nat)) (c : CacheManager),
      c.enabled = true →
      c.cache.length + l.length ≤ c.maxSize →
      c.accessTimes.map Prod.fst = c.cache.map Prod.fst →
      ((l.map Prod.fst) ++ c.cache.map Prod.fst).Nodup →
      l.foldl (fun c2 kt => c2.set kt.1 (.vnum 0) ttl kt.2) c =
        { c with
          cache := c.cache ++
            l.map (fun kt => (kt.1, ⟨RpcValue.vnum 0, kt.2, ttl⟩)),
          accessTimes := c.accessTimes ++ l.map (fun kt => (kt.1, kt.2)) } := by
  intro l
  induction l with
  | nil =>
    intro c hen hlen hsync hnd
    simp
  | cons kt rest ih =>
    intro c hen hlen hsync hnd
    obtain ⟨k0, t0⟩ := kt
    rw [List.map_cons, List.cons_append, List.nodup_cons] at hnd
    obtain ⟨hk0, hnd2⟩ := hnd
    have hk0c : k0 ∉ c.cache.map Prod.fst :=
      fun hm => hk0 (List.mem_append.mpr (Or.inr hm))
    have hfresh : containsKey c.cache k0 = false := by
      rcases h : containsKey c.cache k0 with _ | _
      · rfl
      · exact absurd ((mem_keys_iff_containsKey _ _).mpr h) hk0c
    have hfreshAt : containsKey c.accessTimes k0 = false := by
      rcases h : containsKey c.accessTimes k0 with _ | _
      · rfl
      · have hm := (mem_keys_iff_containsKey _ _).mpr h
        rw [hsync] at hm
        exact absurd hm hk0c
    have hnoev : ¬ c.maxSize ≤ c.cache.length := by
      simp only [List.length_cons] at hlen
      omega
    have hset : c.set k0 (.vnum 0) ttl t0 =
        { c with cache := c.cache ++ [(k0, ⟨RpcValue.vnum 0, t0, ttl⟩)],
                 accessTimes := c.accessTimes ++ [(k0, t0)] } := by
      rw [cache_set_shape c k0 (.vnum 0) ttl t0 hen]
      rw [if_neg hnoev, mapSet_fresh _ _ _ hfresh,
        mapSet_fresh _ _ _ hfreshAt]
    have hndrec : ((rest.map Prod.fst) ++
        (c.cache ++ [(k0, (⟨RpcValue.vnum 0, t0, ttl⟩ : CacheEntry))]).map
          Prod.fst).Nodup := by
      rw [List.map_append, ← List.append_assoc]
      simp only [List.map_cons, List.map_nil]
      rw [List.nodup_middle, List.nodup_cons]
      constructor
      · rw [List.append_nil]
        intro hm
        rcases List.mem_append.mp hm with hm2 | hm2
        · exact hk0 (List.mem_append.mpr (Or.inl hm2))
        · exact hk0c hm2
      · rw [List.append_nil]
        exact hnd2
    have hrec := ih
      { c with cache := c.cache ++ [(k0, ⟨RpcValue.vnum 0, t0, ttl⟩)],
               accessTimes := c.accessTimes ++ [(k0, t0)] }
      hen
      (by simp only [List.length_append, List.length_cons,
        List.length_nil] at hlen ⊢; omega)
      (by simp [hsync]) hndrec
    simp only [List.foldl_cons, hset, hrec, List.map_cons]
    simp [List.append_assoc]

theorem argminFirst_isSome (l : List (String × Nat)) (h : l ≠ []) :
    (argminFirst l).isSome := by
  have main : ∀ (l2 : List (String × Nat)) (b : String × Nat),
      (l2.foldl (fun best kv =>
        match best with
        | none => some kv
        | some b2 => if kv.2 < b2.2 then some kv else best)
        (some b)).isSome := by
    intro l2
    induction l2 with
    | nil => intro b; rfl
    | cons kv rest ih =>
      intro b
      simp only [List.foldl_cons]
      split <;> exact ih _
  match l with
  | [] => exact absurd rfl h
  | kv :: rest =>
    obtain ⟨x, hx⟩ := Option.isSome_iff_exists.mp (main rest kv)
    simp [argminFirst, List.foldl_cons, hx]

theorem mapGet_head {α : Type} (k : String) (v : α)
    (rest : List (String × α)) : mapGet ((k, v) :: rest) k = some v := by
  simp [mapGet]

theorem evictLRU_wf (C : Nat) (c : CacheManager) (h : CacheWF C c) :
    CacheWF C c.evictLRU ∧
    (1 ≤ C → C ≤ c.cache.length →
      c.evictLRU.cache.length + 1 = c.cache.length) := by
  obtain ⟨hmax, hen, hlen, hndc, hnda, hsync, hne⟩ := h
  by_cases hlen0 : c.cache.length = 0
  · constructor
    · unfold CacheWF CacheManager.evictLRU
      rw [if_pos hlen0]
      exact ⟨hmax, hen, hlen, hndc, hnda, hsync, hne⟩
    · intro hC hCle
      omega
  · have hcne : c.cache ≠ [] := fun he => hlen0 (by simp [he])
    have hane : c.accessTimes ≠ [] := by
      intro hae
      match hcache : c.cache, hcne with
      | (k0, v0) :: rest, _ =>
        have h1 : containsKey c.cache k0 = true := by
          rw [hcache]
          simp [containsKey, mapGet_head]
        have h2 := hsync k0
        rw [h1, hae] at h2
        simp [containsKey, mapGet] at h2
    obtain ⟨kstar, hks⟩ := Option.isSome_iff_exists.mp
      (argminFirst_isSome c.accessTimes hane)
    have hksmem : kstar ∈ c.accessTimes.map Prod.fst :=
      argminFirst_mem _ _ hks
    have hksne : kstar ≠ "" := hne kstar hksmem
    have hkscache : containsKey c.cache kstar = true := by
      rw [hsync]
      exact (mem_keys_iff_containsKey _ _).mp hksmem
    have hev : c.evictLRU =
        { c with cache := mapDelete c.cache kstar,
                 accessTimes := mapDelete c.accessTimes kstar,
                 evictions := c.evictions + 1 } := by
      simp only [CacheManager.evictLRU, if_neg hlen0, hks, if_neg hksne]
    rw [hev]
    unfold CacheWF
    refine ⟨⟨hmax, hen, le_trans (mapDelete_length_le _ _) hlen,
      mapDelete_keys_nodup _ _ hndc, mapDelete_keys_nodup _ _ hnda,
      fun k2 => ?_, fun k2 hm => ?_⟩, fun _ _ => ?_⟩
    · by_cases h2 : k2 = kstar
      · subst h2
        simp only [containsKey, mapGet_mapDelete_self _ _ hndc,
          mapGet_mapDelete_self _ _ hnda]
        rfl
      · simp only [containsKey, mapGet_mapDelete_ne _ _ _ h2]
        exact hsync k2
    · exact hne k2 ((mapDelete_keys_sub _ _).mem hm)
    · exact mapDelete_length_of_contains _ _ hkscache

theorem cacheOp_wf (C : Nat) (c : CacheManager) (op : CacheOp)
    (hC : 1 ≤ C) (h : CacheWF C c) (hkey : op.key ≠ "") :
    CacheWF C (runCacheOp c op) := by
  obtain ⟨hmax, hen, hlen, hndc, hnda, hsync, hne⟩ := h
  unfold CacheWF
  cases op with
  | opGet kk now =>
    rcases hg : mapGet c.cache kk with _ | e
    · have hstep : runCacheOp c (.opGet kk now) =
          { c with misses := c.misses + 1 } := by
        simp [runCacheOp, CacheManager.get, hen, hg]
      rw [hstep]
      exact ⟨hmax, hen, hlen, hndc, hnda, hsync, hne⟩
    · by_cases hexp : e.ttl < now - e.timestamp
      · have hstep : runCacheOp c (.opGet kk now) =
            { c with cache := mapDelete c.cache kk,
                     accessTimes := mapDelete c.accessTimes kk,
                     misses := c.misses + 1 } := by
          simp [runCacheOp, CacheManager.get, hen, hg, hexp]
        rw [hstep]
        refine ⟨hmax, hen, le_trans (mapDelete_length_le _ _) hlen,
          mapDelete_keys_nodup _ _ hndc, mapDelete_keys_nodup _ _ hnda,
          fun k2 => ?_, fun k2 hm => hne k2 ((mapDelete_keys_sub _ _).mem hm)⟩
        by_cases h2 : k2 = kk
        · subst h2
          simp only [containsKey, mapGet_mapDelete_self _ _ hndc,
            mapGet_mapDelete_self _ _ hnda]
          rfl
        · simp only [containsKey, mapGet_mapDelete_ne _ _ _ h2]
          exact hsync k2
      · have hstep : runCacheOp c (.opGet kk now) =
            { c with cache := mapSet (mapDelete c.cache kk) kk e,
                     accessTimes := mapSet c.accessTimes kk now,
                     hits := c.hits + 1 } := by
          simp [runCacheOp, CacheManager.get, hen, hg, hexp]
        rw [hstep]
        have hck : containsKey c.cache kk = true := by
          simp [containsKey, hg]
        have hfreshdel : containsKey (mapDelete c.cache kk) kk = false := by
          simp [containsKey, mapGet_mapDelete_self _ _ hndc]
        have hlen2 : (mapSet (mapDelete c.cache kk) kk e).length =
            c.cache.length := by
          rw [mapSet_length, if_neg (by simp [hfreshdel])]
          have := mapDelete_length_of_contains c.cache kk hck
          omega
        have hatkeys : (mapSet c.accessTimes kk now).map Prod.fst =
            c.accessTimes.map Prod.fst := by
          rw [mapSet_keys, if_pos (by rw [← hsync]; exact hck)]
        refine ⟨hmax, hen, by rw [hlen2]; exact hlen,
          mapSet_keys_nodup _ _ _ (mapDelete_keys_nodup _ _ hndc),
          by rw [hatkeys]; exact hnda, fun k2 => ?_,
          fun k2 hm => hne k2 (by rwa [hatkeys] at hm)⟩
        by_cases h2 : k2 = kk
        · subst h2
          rw [containsKey_mapSet_self]
          exact (containsKey_mapSet_self _ _ _).symm
        · rw [containsKey, mapGet_mapSet_ne _ _ _ _ h2,
            mapGet_mapDelete_ne _ _ _ h2, containsKey,
            mapGet_mapSet_ne _ _ _ _ h2]
          exact hsync k2
  | opSet k v ttl now =>
    have hkne : k ≠ "" := hkey
    obtain ⟨⟨hmax2, hen2, hlen2, hndc2, hnda2, hsync2, hne2⟩, hevlen⟩ :=
      evictLRU_wf C c ⟨hmax, hen, hlen, hndc, hnda, hsync, hne⟩
    simp only [runCacheOp, CacheManager.set, hen, Bool.not_true,
      Bool.false_eq_true, if_false]
    by_cases hfull : c.maxSize ≤ c.cache.length
    · rw [if_pos hfull]
      have hlen3 : c.evictLRU.cache.length + 1 = c.cache.length :=
        hevlen hC (hmax ▸ hfull)
      refine ⟨hmax2, hen2, ?_, mapSet_keys_nodup _ _ _ hndc2,
        mapSet_keys_nodup _ _ _ hnda2, fun k2 => ?_, fun k2 hm => ?_⟩
      · rw [mapSet_length]
        split <;> omega
      · by_cases h2 : k2 = k
        · subst h2
          rw [containsKey_mapSet_self, containsKey_mapSet_self]
        · rw [containsKey, mapGet_mapSet_ne _ _ _ _ h2, containsKey,
            mapGet_mapSet_ne _ _ _ _ h2]
          exact hsync2 k2
      · rw [mapSet_keys] at hm
        split at hm
        · exact hne2 k2 hm
        · rcases List.mem_append.mp hm with hm2 | hm2
          · exact hne2 k2 hm2
          · simp only [List.mem_singleton] at hm2
            subst hm2
            exact hkne
    · rw [if_neg hfull]
      refine ⟨hmax, hen, ?_, mapSet_keys_nodup _ _ _ hndc,
        mapSet_keys_nodup _ _ _ hnda, fun k2 => ?_, fun k2 hm => ?_⟩
      · rw [mapSet_length]
        rw [hmax] at hfull
        split <;> omega
      · by_cases h2 : k2 = k
        · subst h2
          rw [containsKey_mapSet_self, containsKey_mapSet_self]
        · rw [containsKey, mapGet_mapSet_ne _ _ _ _ h2, containsKey,
            mapGet_mapSet_ne _ _ _ _ h2]
          exact hsync k2
      · rw [mapSet_keys] at hm
        split at hm
        · exact hne k2 hm
        · rcases List.mem_append.mp hm with hm2 | hm2
          · exact hne k2 hm2
          · simp only [List.mem_singleton] at hm2
            subst hm2
            exact hkne
  | opDelete k =>
    simp only [runCacheOp, CacheManager.deleteKey]
    refine ⟨hmax, hen, le_trans (mapDelete_length_le _ _) hlen,
      mapDelete_keys_nodup _ _ hndc, mapDelete_keys_nodup _ _ hnda,
      fun k2 => ?_, fun k2 hm => hne k2 ((mapDelete_keys_sub _ _).mem hm)⟩
    by_cases h2 : k2 = k
    · subst h2
      simp only [containsKey, mapGet_mapDelete_self _ _ hndc,
        mapGet_mapDelete_self _ _ hnda]
      rfl
    · simp only [containsKey, mapGet_mapDelete_ne _ _ _ h2]
      exact hsync k2

/-- C7 counterexample: with capacity 1, inserting the two distinct keys `""`
and `"a"` leaves the cache with 2 entries — `evictLRU` finds the
least-recently-used key `""`, but the JavaScript guard `if (oldestKey)`
treats the empty string as falsy and evicts nothing, so the LRU entry is not
evicted and the cache exceeds its capacity. -/
theorem C7_counterexample :
    (((initCache 1).set "" (.vnum 1) 100 0).set "a"
      (.vnum 2) 100 1).cache.length = 2 ∧
    ¬ (((initCache 1).set "" (.vnum 1) 100 0).set "a"
      (.vnum 2) 100 1).cache.length ≤ 1 ∧
    containsKey (((initCache 1).set "" (.vnum 1) 100 0).set "a"
      (.vnum 2) 100 1).cache "" = true := by
  decide

theorem lru_insert_full (ttl : Nat) (kt1 : String × Nat)
    (mid : List (String × Nat)) (ktLast : String × Nat)
    (hnd : ((kt1 :: (mid ++ [ktLast])).map Prod.fst).Nodup)
    (hne : ∀ kt ∈ kt1 :: (mid ++ [ktLast]), kt.1 ≠ "")
    (hsort : ((kt1 :: (mid ++ [ktLast])).map Prod.snd).Pairwise (· ≤ ·)) :
    ((kt1 :: (mid ++ [ktLast])).foldl
        (fun c2 kt => c2.set kt.1 (.vnum 0) ttl kt.2)
        (initCache (mid.length + 1))).cache.map Prod.fst
      = (mid ++ [ktLast]).map Prod.fst ∧
    ((kt1 :: (mid ++ [ktLast])).foldl
        (fun c2 kt => c2.set kt.1 (.vnum 0) ttl kt.2)
        (initCache (mid.length + 1))).cache.length = mid.length + 1 := by
  obtain ⟨k1, t1⟩ := kt1
  obtain ⟨kL, tL⟩ := ktLast
  have hsplit : (k1, t1) :: (mid ++ [(kL, tL)]) =
      ((k1, t1) :: mid) ++ [(kL, tL)] := by
    simp
  rw [hsplit, List.foldl_append]
  have hndfill : ((((k1, t1) :: mid).map Prod.fst) ++
      (initCache (mid.length + 1)).cache.map Prod.fst).Nodup := by
    simp only [initCache, List.map_nil, List.append_nil]
    have hsub : (((k1, t1) :: mid).map Prod.fst).Sublist
        (((k1, t1) :: (mid ++ [(kL, tL)])).map Prod.fst) := by
      simp only [List.map_cons, List.map_append]
      exact (List.sublist_append_left _ _).cons₂ _
    exact hsub.nodup hnd
  have hfill := cache_fill ttl ((k1, t1) :: mid) (initCache (mid.length + 1))
    rfl (by simp [initCache]) (by simp [initCache]) hndfill
  have hfill2 : (((k1, t1) :: mid)).foldl
      (fun c2 kt => c2.set kt.1 (.vnum 0) ttl kt.2)
      (initCache (mid.length + 1)) =
      ⟨mid.length + 1, true,
        (k1, ⟨RpcValue.vnum 0, t1, ttl⟩) ::
          mid.map (fun kt => (kt.1, ⟨RpcValue.vnum 0, kt.2, ttl⟩)),
        (k1, t1) :: mid, 0, 0, 0⟩ := by
    rw [hfill]
    simp [initCache]
  rw [hfill2]
  have hmin : ∀ kt ∈ mid, t1 ≤ kt.2 := by
    intro kt hkt
    have := (List.pairwise_cons.mp (by
      simpa only [List.map_cons] using hsort)).1 kt.2
    exact this (by
      rw [List.map_append]
      exact List.mem_append.mpr (Or.inl (List.mem_map.mpr ⟨kt, hkt, rfl⟩)))
  have hk1ne : k1 ≠ "" := hne (k1, t1) (List.mem_cons_self _ _)
  have hargs : argminFirst ((k1, t1) :: mid) = some k1 :=
    argminFirst_head k1 t1 mid hmin
  have hev : CacheManager.evictLRU ⟨mid.length + 1, true,
      (k1, ⟨RpcValue.vnum 0, t1, ttl⟩) ::
        mid.map (fun kt => (kt.1, ⟨RpcValue.vnum 0, kt.2, ttl⟩)),
      (k1, t1) :: mid, 0, 0, 0⟩ =
      ⟨mid.length + 1, true,
        mid.map (fun kt => (kt.1, ⟨RpcValue.vnum 0, kt.2, ttl⟩)),
        mid, 0, 0, 1⟩ := by
    simp [CacheManager.evictLRU, hargs, hk1ne, mapDelete_head]
  have hklastmem : kL ∉ mid.map Prod.fst := by
    simp only [List.map_cons, List.map_append, List.nodup_cons] at hnd
    intro hm2
    exact (List.nodup_append.mp hnd.2).2.2 hm2 (by simp)
  have hklastfresh : containsKey
      (mid.map (fun kt => (kt.1, (⟨RpcValue.vnum 0, kt.2, ttl⟩ :
        CacheEntry)))) kL = false := by
    rcases h : containsKey _ kL with _ | _
    · rfl
    · exfalso
      have hm := (mem_keys_iff_containsKey _ _).mpr h
      rw [List.map_map] at hm
      exact hklastmem (by simpa using hm)
  have hklastfreshAt : containsKey mid kL = false := by
    rcases h : containsKey _ kL with _ | _
    · rfl
    · exact absurd ((mem_keys_iff_containsKey _ _).mpr h) hklastmem
  simp only [List.foldl_cons, List.foldl_nil]
  rw [cache_set_shape _ _ _ _ _ rfl, if_pos (by simp), hev,
    mapSet_fresh _ _ _ hklastfresh]
  constructor
  · simp [List.map_map, Function.comp]
  · simp

/-- C7 (amended): the LRU/capacity claim holds for non-empty keys (the
counterexample key `""` is excluded: JavaScript's falsy check in `evictLRU`
makes an empty-string key unevictable).  For a cache of capacity
`C = mid.length + 1 ≥ 1`: (a) inserting `C + 1` distinct non-empty keys at
nondecreasing times evicts exactly the first-inserted (least recently used)
key and no other — the survivors are precisely the later `C` keys in order;
(b) a `get` hit re-stamps the key's access time with the current time and
moves the entry to the most-recent position; (c) after any sequence of
get/set/delete operations with non-empty keys from an empty cache, the cache
never holds more than `C` entries. -/
theorem C7_lru_eviction_amended :
    (∀ (ttl : Nat) (kt1 : String × Nat) (mid : List (String × Nat))
        (ktLast : String × Nat),
      ((kt1 :: (mid ++ [ktLast])).map Prod.fst).Nodup →
      (∀ kt ∈ kt1 :: (mid ++ [ktLast]), kt.1 ≠ "") →
      ((kt1 :: (mid ++ [ktLast])).map Prod.snd).Pairwise (· ≤ ·) →
      ((kt1 :: (mid ++ [ktLast])).foldl
          (fun c2 kt => c2.set kt.1 (.vnum 0) ttl kt.2)
          (initCache (mid.length + 1))).cache.map Prod.fst
        = (mid ++ [ktLast]).map Prod.fst ∧
      ((kt1 :: (mid ++ [ktLast])).foldl
          (fun c2 kt => c2.set kt.1 (.vnum 0) ttl kt.2)
          (initCache (mid.length + 1))).cache.length = mid.length + 1) ∧
    (∀ (c : CacheManager) (k : String) (now : Nat) (e : CacheEntry),
      c.enabled = true → (c.cache.map Prod.fst).Nodup →
      mapGet c.cache k = some e → ¬ e.ttl < now - e.timestamp →
      mapGet ((c.get k now).2).accessTimes k = some now ∧
      ((c.get k now).2).cache.getLast? = some (k, e)) ∧
    (∀ (C : Nat) (ops : List CacheOp), 1 ≤ C →
      (∀ op ∈ ops, op.key ≠ "") →
      (runCacheOps (initCache C) ops).cache.length ≤ C) := by
  refine ⟨lru_insert_full, ?_, ?_⟩
  · intro c k now e hen hnd hg hexp
    have hstep : c.get k now = (e.data,
        { c with cache := mapSet (mapDelete c.cache k) k e,
                 accessTimes := mapSet c.accessTimes k now,
                 hits := c.hits + 1 }) := by
      simp [CacheManager.get, hen, hg, hexp]
    rw [hstep]
    refine ⟨mapGet_mapSet_self _ _ _, ?_⟩
    have hfresh : containsKey (mapDelete c.cache k) k = false := by
      simp [containsKey, mapGet_mapDelete_self _ _ hnd]
    rw [mapSet_fresh _ _ _ hfresh]
    simp
  · intro C ops hC hkeys
    have main : ∀ (ops2 : List CacheOp) (c : CacheManager), CacheWF C c →
        (∀ op ∈ ops2, op.key ≠ "") → CacheWF C (runCacheOps c ops2) := by
      intro ops2
      induction ops2 with
      | nil => intro c h _; exact h
      | cons op rest ih =>
        intro c h hk
        exact ih (runCacheOp c op)
          (cacheOp_wf C c op hC h (hk op (List.mem_cons_self _ _)))
          (fun o ho => hk o (List.mem_cons_of_mem _ ho))
    have hwf0 : CacheWF C (initCache C) := by
      unfold CacheWF
      refine ⟨rfl, rfl, by simp [initCache], by simp [initCache],
        by simp [initCache], fun k => rfl, by simp [initCache]⟩
    exact (main ops (initCache C) hwf0 hkeys).2.2.1

theorem C7_witness :
    ((([("k1", 0), ("k2", 1), ("k3", 2)] :
        List (String × Nat)).map Prod.fst).Nodup ∧
      (∀ kt ∈ ([("k1", 0), ("k2", 1), ("k3", 2)] :
        List (String × Nat)), kt.1 ≠ "") ∧
      (([("k1", 0), ("k2", 1), ("k3", 2)] :
        List (String × Nat)).map Prod.snd).Pairwise (· ≤ ·)) ∧
    (([("k1", 0), ("k2", 1), ("k3", 2)] : List (String × Nat)).foldl
        (fun c2 kt => c2.set kt.1 (.vnum 0) 50 kt.2)
        (initCache 2)).cache.map Prod.fst = ["k2", "k3"] ∧
    (([("k1", 0), ("k2", 1), ("k3", 2)] : List (String × Nat)).foldl
        (fun c2 kt => c2.set kt.1 (.vnum 0) 50 kt.2)
        (initCache 2)).cache.length = 2 ∧
    mapGet ((((initCache 2).set "a" (.vnum 7) 50 3).get "a" 4).2).accessTimes
      "a" = some 4 ∧
    ((((initCache 2).set "a" (.vnum 7) 50 3).get "a" 4).2).cache.getLast? =
      some ("a", ⟨.vnum 7, 3, 50⟩) ∧
    (runCacheOps (initCache 2)
      [.opSet "a" (.vnum 1) 50 0, .opSet "b" (.vnum 2) 50 1,
       .opSet "c" (.vnum 3) 50 2, .opGet "b" 3,
       .opDelete "c"]).cache.length ≤ 2 := by
  have h1 := C7_lru_eviction_amended.1 50 ("k1", 0) [("k2", 1)] ("k3", 2)
    (by decide) (by decide) (by decide)
  have h2 := C7_lru_eviction_amended.2.1 ((initCache 2).set "a"
    (.vnum 7) 50 3) "a" 4 ⟨.vnum 7, 3, 50⟩ (by decide) (by decide)
    (by decide) (by decide)
  have h3 := C7_lru_eviction_amended.2.2 2
    [.opSet "a" (.vnum 1) 50 0, .opSet "b" (.vnum 2) 50 1,
     .opSet "c" (.vnum 3) 50 2, .opGet "b" 3, .opDelete "c"]
    (by decide) (by decide)
  exact ⟨⟨by decide, by decide, by decide⟩,
    by simpa using h1.1, by simpa using h1.2, h2.1, h2.2, h3⟩

/-! ### Claim C1: frame-parser chunking -/

/-- C1 counterexample: for the stream consisting of the two directly
concatenated valid JSON objects with bytes `123 34 97 34 58 49 125`
(an object) and `123 34 98 34 58 10 50 125` (an object containing a newline
as internal JSON whitespace), feeding the whole stream in one call delivers
no message — the newline fast path consumes the bytes of the first object as
a failed line — while feeding one byte at a time delivers the first object.
The two chunkings of the same byte stream yield different message
sequences, refuting the claim as stated. -/
theorem C1_counterexample :
    (processAll (initParser 2097152) [cexStream]).1 = [] ∧
    (processAll (initParser 2097152) (cexStream.map (fun b => [b]))).1 =
      [[123, 34, 97, 34, 58, 49, 125]] ∧
    (processAll (initParser 2097152) [cexStream]).1 ≠
      (processAll (initParser 2097152) (cexStream.map (fun b => [b]))).1 := by
  refine ⟨by decide, by decide, by decide⟩

theorem scanLoopSrc_cons (s : ScanSt) (sp i : Nat) (b : Nat)
    (bs : List Nat) :
    scanLoopSrc s sp i (b :: bs) =
      if doneStep s b then some (sp, i + 1)
      else scanLoopSrc (scanStep s b) (spUpd s sp i b) (i + 1) bs := by
  by_cases hesc : s.esc
  · simp [scanLoopSrc, scanStep, doneStep, spUpd, hesc]
  · by_cases h92 : b = 92
    · subst h92
      simp [scanLoopSrc, scanStep, doneStep, spUpd, hesc]
    · by_cases h34 : b = 34
      · subst h34
        simp [scanLoopSrc, scanStep, doneStep, spUpd, hesc]
      · by_cases hin : s.instr
        · simp [scanLoopSrc, scanStep, doneStep, spUpd, hesc, h92, h34, hin]
        · by_cases h123 : b = 123
          · subst h123
            by_cases hfs : s.fs <;>
              simp [scanLoopSrc, scanStep, doneStep, spUpd, hesc, h92, h34,
                hin, hfs]
          · by_cases h125 : b = 125
            · subst h125
              by_cases hfs : s.fs
              · by_cases hbc : s.bc = 1 <;>
                  simp [scanLoopSrc, scanStep, doneStep, spUpd, hesc, h92,
                    h34, hin, hfs, hbc]
              · simp [scanLoopSrc, scanStep, doneStep, spUpd, hesc, h92,
                  h34, hin, hfs]
            · simp [scanLoopSrc, scanStep, doneStep, spUpd, hesc, h92, h34,
                hin, h123, h125]

theorem scanStep_fs (s : ScanSt) (b : Nat) (h : s.fs = true) :
    (scanStep s b).fs = true := by
  unfold scanStep
  split_ifs <;> simp [h]

theorem spUpd_of_fs (s : ScanSt) (sp i : Nat) (b : Nat) (h : s.fs = true) :
    spUpd s sp i b = sp := by
  simp [spUpd, h]

theorem sbAux_ne_nil (s : ScanSt) (j : Nat) :
    sbAux s [] = some j → False := by
  simp [sbAux]

theorem scanLoopSrc_of_sbAux_end :
    ∀ (bs : List Nat) (s : ScanSt) (sp i : Nat) (rest : List Nat),
      s.fs = true → sbAux s bs = some (bs.length - 1) → bs ≠ [] →
      scanLoopSrc s sp i (bs ++ rest) = some (sp, i + bs.length) := by
  intro bs
  induction bs with
  | nil => intro s sp i rest _ h hne; exact absurd rfl hne
  | cons b bs2 ih =>
    intro s sp i rest hfs h _
    rcases bs2 with _ | ⟨b2, bs3⟩
    · simp only [sbAux, List.length_cons, List.length_nil] at h
      rcases hdone : doneStep s b with _ | _
      · rw [hdone] at h
        simp [sbAux] at h
      · rw [List.cons_append, scanLoopSrc_cons, if_pos hdone]
        simp
    · have hlen : (b :: b2 :: bs3).length - 1 = bs3.length + 1 := by simp
      rw [hlen] at h
      rcases hdone : doneStep s b with _ | _
      · rw [sbAux, hdone] at h
        simp only [Bool.false_eq_true, if_false] at h
        have h2 : sbAux (scanStep s b) (b2 :: bs3) = some bs3.length := by
          rcases h3 : sbAux (scanStep s b) (b2 :: bs3) with _ | j
          · rw [h3] at h
            simp at h
          · rw [h3] at h
            simp only [Option.map_some', Option.some.injEq] at h
            congr 1
            omega
        rw [List.cons_append, scanLoopSrc_cons, hdone]
        simp only [Bool.false_eq_true, if_false]
        rw [spUpd_of_fs _ _ _ _ hfs]
        have hrec := ih (scanStep s b) sp (i + 1) rest
          (scanStep_fs s b hfs) (by simpa using h2) (by simp)
        rw [hrec]
        simp only [List.length_cons]
        congr 2
        omega
      · rw [sbAux, hdone, if_pos rfl] at h
        simp at h

theorem ObjScanOK_ne_nil (m : List Nat) (h : ObjScanOK m) : m ≠ [] := by
  intro he
  rw [he] at h
  simp [ObjScanOK] at h

theorem ObjScanOK_shape (m : List Nat) (h : ObjScanOK m) :
    ∃ m2, m = 123 :: m2 := by
  obtain ⟨h1, _⟩ := h
  match m with
  | [] => simp at h1
  | b :: m2 =>
    simp only [List.head?_cons, Option.some.injEq] at h1
    exact ⟨m2, by rw [h1]⟩

theorem findCompleteJSON_obj (m rest : List Nat) (h : ObjScanOK m) :
    findCompleteJSON (m ++ rest) = some (0, m.length) := by
  obtain ⟨m2, rfl⟩ := ObjScanOK_shape m h
  obtain ⟨_, hsb⟩ := h
  have hm2 : m2 ≠ [] := by
    intro he
    subst he
    simp only [scanBoundary, sbAux, doneStep, scanInit] at hsb
    simp at hsb
  have hsb2 : sbAux (scanStep scanInit 123) m2 = some (m2.length - 1) := by
    rw [scanBoundary, sbAux] at hsb
    have hd : doneStep scanInit 123 = false := by decide
    rw [hd] at hsb
    simp only [Bool.false_eq_true, if_false] at hsb
    rcases h3 : sbAux (scanStep scanInit 123) m2 with _ | j
    · rw [h3] at hsb; simp at hsb
    · rw [h3] at hsb
      simp only [Option.map_some', Option.some.injEq] at hsb
      have hlen : (123 :: m2).length - 1 = m2.length := by simp
      rw [hlen] at hsb
      congr 1
      have : 1 ≤ m2.length := by
        match m2, hm2 with
        | b :: r, _ => simp
      omega
  have hfs : (scanStep scanInit 123).fs = true := by decide
  have hws : ((123 :: m2 ++ rest).takeWhile isWhitespaceByte).length = 0 := by
    simp [List.takeWhile, isWhitespaceByte]
  unfold findCompleteJSON
  rw [hws]
  rw [if_neg (by simp)]
  simp only [List.drop_zero, List.cons_append]
  rw [scanLoopSrc_cons]
  have hd : doneStep scanInit 123 = false := by decide
  rw [hd]
  simp only [Bool.false_eq_true, if_false]
  have hsp : spUpd scanInit 0 0 123 = 0 := by decide
  rw [hsp]
  rw [scanLoopSrc_of_sbAux_end m2 _ 0 1 rest hfs hsb2 hm2]
  simp only [List.length_cons, Option.some.injEq, Prod.mk.injEq, true_and]
  omega

theorem scanLoopSrc_take_none :
    ∀ (bs : List Nat) (j k : Nat) (s : ScanSt) (sp i : Nat),
      sbAux s bs = some k → j ≤ k →
      scanLoopSrc s sp i (bs.take j) = none := by
  intro bs
  induction bs with
  | nil => intro j k s sp i h _; simp [sbAux] at h
  | cons b bs2 ih =>
    intro j k s sp i h hj
    match j with
    | 0 => simp [scanLoopSrc]
    | j2 + 1 =>
      rw [sbAux] at h
      rcases hdone : doneStep s b with _ | _
      · rw [hdone] at h
        simp only [Bool.false_eq_true, if_false] at h
        rcases h3 : sbAux (scanStep s b) bs2 with _ | k2
        · rw [h3] at h; simp at h
        · rw [h3] at h
          simp only [Option.map_some', Option.some.injEq] at h
          rw [List.take_succ_cons, scanLoopSrc_cons, hdone]
          simp only [Bool.false_eq_true, if_false]
          exact ih j2 k2 _ _ _ h3 (by omega)
      · rw [hdone, if_pos rfl] at h
        simp only [Option.some.injEq] at h
        omega

theorem findCompleteJSON_obj_take (m : List Nat) (j : Nat) (h : ObjScanOK m)
    (hj : j < m.length) : findCompleteJSON (m.take j) = none := by
  obtain ⟨m2, rfl⟩ := ObjScanOK_shape m h
  obtain ⟨_, hsb⟩ := h
  match j with
  | 0 => simp [findCompleteJSON]
  | j2 + 1 =>
    have hsb2 : ∃ k2, sbAux (scanStep scanInit 123) m2 = some k2 ∧
        k2 + 1 = (123 :: m2).length - 1 := by
      rw [scanBoundary, sbAux] at hsb
      have hd : doneStep scanInit 123 = false := by decide
      rw [hd] at hsb
      simp only [Bool.false_eq_true, if_false] at hsb
      rcases h3 : sbAux (scanStep scanInit 123) m2 with _ | k2
      · rw [h3] at hsb; simp at hsb
      · rw [h3] at hsb
        simp only [Option.map_some', Option.some.injEq] at hsb
        exact ⟨k2, rfl, hsb⟩
    obtain ⟨k2, h3, hk2⟩ := hsb2
    have hws : (((123 :: m2).take (j2 + 1)).takeWhile
        isWhitespaceByte).length = 0 := by
      simp [List.take_succ_cons, List.takeWhile, isWhitespaceByte]
    unfold findCompleteJSON
    rw [hws]
    rw [if_neg (by simp [List.take_succ_cons])]
    simp only [List.drop_zero, List.take_succ_cons]
    rw [scanLoopSrc_cons]
    have hd : doneStep scanInit 123 = false := by decide
    rw [hd]
    simp only [Bool.false_eq_true, if_false]
    exact scanLoopSrc_take_none m2 j2 k2 _ _ _ h3 (by
      simp only [List.length_cons] at hj hk2
      omega)

theorem sbAux_last_byte :
    ∀ (bs : List Nat) (s : ScanSt) (j : Nat),
      sbAux s bs = some j → j + 1 = bs.length → bs.getLast? = some 125 := by
  intro bs
  induction bs with
  | nil => intro s j h _; simp [sbAux] at h
  | cons b bs2 ih =>
    intro s j h hj
    rw [sbAux] at h
    rcases hdone : doneStep s b with _ | _
    · rw [hdone] at h
      simp only [Bool.false_eq_true, if_false] at h
      rcases h3 : sbAux (scanStep s b) bs2 with _ | j2
      · rw [h3] at h; simp at h
      · rw [h3] at h
        simp only [Option.map_some', Option.some.injEq] at h
        have hne : bs2 ≠ [] := by
          intro he
          subst he
          simp [sbAux] at h3
        match bs2, hne, h3 with
        | b2 :: bs3, _, h3 =>
          rw [List.getLast?_cons_cons]
          exact ih _ j2 h3 (by
            simp only [List.length_cons] at hj ⊢
            omega)
    · rw [hdone, if_pos rfl] at h
      simp only [Option.some.injEq] at h
      have hb : b = 125 := by
        simp only [doneStep, Bool.and_eq_true, decide_eq_true_eq] at hdone
        exact hdone.2
      have hbs2 : bs2 = [] := by
        have : (b :: bs2).length = 1 := by omega
        simp only [List.length_cons] at this
        exact List.length_eq_zero.mp (by omega)
      subst hbs2 hb
      rfl

theorem ObjScanOK_last (m : List Nat) (h : ObjScanOK m) :
    m.getLast? = some 125 := by
  have hne := ObjScanOK_ne_nil m h
  obtain ⟨_, hsb⟩ := h
  have hlen : 1 ≤ m.length := by
    match m, hne with
    | b :: r, _ => simp
  exact sbAux_last_byte m scanInit (m.length - 1) hsb (by omega)

theorem findCompleteJSON_nil : findCompleteJSON [] = none := by
  decide

theorem braceLoop_objs :
    ∀ (L : List (List Nat)) (fuel : Nat) (p : List Nat),
      (∀ m ∈ L, ObjScanOK m ∧ jsonOk m = true) →
      findCompleteJSON p = none →
      L.length < fuel →
      braceLoop fuel (L.flatten ++ p) = (L, L.flatten.length, 0) := by
  intro L
  induction L with
  | nil =>
    intro fuel p _ hp hfuel
    match fuel, hfuel with
    | f + 1, _ =>
      simp only [List.flatten_nil, List.nil_append, List.length_nil]
      rw [braceLoop]
      by_cases hp0 : p = []
      · rw [if_pos hp0]
      · rw [if_neg hp0, hp]
  | cons m L2 ih =>
    intro fuel p hv hp hfuel
    match fuel, hfuel with
    | f + 1, hf2 =>
      have hm := hv m (List.mem_cons_self _ _)
      have hmne : m ≠ [] := ObjScanOK_ne_nil m hm.1
      have hbs : (m :: L2).flatten ++ p = m ++ (L2.flatten ++ p) := by
        simp
      rw [hbs, braceLoop]
      have hne2 : m ++ (L2.flatten ++ p) ≠ [] := by
        simp [hmne]
      rw [if_neg hne2, findCompleteJSON_obj m _ hm.1]
      dsimp only
      have hseg : ((m ++ (L2.flatten ++ p)).drop 0).take (m.length - 0)
          = m := by
        simp [List.take_left]
      rw [hseg]
      have hdrop : (m ++ (L2.flatten ++ p)).drop m.length =
          L2.flatten ++ p := List.drop_left _ _
      rw [hdrop]
      rw [ih f p (fun m2 hm2 => hv m2 (List.mem_cons_of_mem _ hm2)) hp
        (by simp only [List.length_cons] at hf2 ⊢; omega)]
      rw [if_pos hm.2]
      simp

theorem flatten_length_ge (L : List (List Nat)) (h : ∀ m ∈ L, m ≠ []) :
    L.length ≤ L.flatten.length := by
  induction L with
  | nil => simp
  | cons m L2 ih =>
    have hm := h m (List.mem_cons_self _ _)
    have h1 : 1 ≤ m.length := by
      match m, hm with
      | b :: r, _ => simp
    have := ih (fun m2 hm2 => h m2 (List.mem_cons_of_mem _ hm2))
    simp only [List.length_cons, List.flatten_cons, List.length_append]
    omega

theorem processBraceCounting_objs (L : List (List Nat)) (p : List Nat)
    (hv : ∀ m ∈ L, ObjScanOK m ∧ jsonOk m = true)
    (hp : findCompleteJSON p = none) :
    processBraceCounting (L.flatten ++ p) = (L, L.flatten.length, 0) := by
  unfold processBraceCounting
  exact braceLoop_objs L ((L.flatten ++ p).length + 1) p hv hp (by
    have := flatten_length_ge L (fun m hm => ObjScanOK_ne_nil m (hv m hm).1)
    simp only [List.length_append]
    omega)

theorem splitOnNL_noNL (p : List Nat) (h : p.contains 10 = false) :
    splitOnNL p = [p] := by
  induction p with
  | nil => rfl
  | cons b rest ih =>
    simp only [List.contains_cons, Bool.or_eq_false_iff] at h
    have hb : ¬ b = 10 := by
      intro he
      subst he
      simp at h
    rw [splitOnNL, if_neg hb, ih h.2]

theorem splitOnNL_append (m rest : List Nat) (h : m.contains 10 = false) :
    splitOnNL (m ++ 10 :: rest) = m :: splitOnNL rest := by
  induction m with
  | nil => simp [splitOnNL]
  | cons b m2 ih =>
    simp only [List.contains_cons, Bool.or_eq_false_iff] at h
    have hb : ¬ b = 10 := by
      intro he
      subst he
      simp at h
    rw [List.cons_append, splitOnNL, if_neg hb, ih h.2]

theorem splitOnNL_blocks :
    ∀ (L : List (List Nat)) (p : List Nat),
      (∀ m ∈ L, m.contains 10 = false) → p.contains 10 = false →
      splitOnNL ((L.map (fun m => m ++ [10])).flatten ++ p) = L ++ [p] := by
  intro L
  induction L with
  | nil =>
    intro p _ hp
    simp [splitOnNL_noNL p hp]
  | cons m L2 ih =>
    intro p hL hp
    have heq : ((m :: L2).map (fun m => m ++ [10])).flatten ++ p =
        m ++ 10 :: ((L2.map (fun m => m ++ [10])).flatten ++ p) := by
      simp
    rw [heq, splitOnNL_append m _ (hL m (List.mem_cons_self _ _)),
      ih p (fun m2 hm2 => hL m2 (List.mem_cons_of_mem _ hm2)) hp]
    rfl

theorem trimBytes_obj (m : List Nat) (h1 : m.head? = some 123)
    (h2 : m.getLast? = some 125) : trimBytes m = m := by
  match m with
  | [] => simp at h1
  | b :: m2 =>
    simp only [List.head?_cons, Option.some.injEq] at h1
    subst h1
    unfold trimBytes
    have hd1 : (123 :: m2).dropWhile jsTrimWs = 123 :: m2 := by
      rw [List.dropWhile_cons]
      simp [jsTrimWs]
    rw [hd1]
    have hrev : (123 :: m2).reverse.head? = some 125 := by
      rw [List.head?_reverse]
      exact h2
    match hr : (123 :: m2).reverse with
    | [] => rw [hr] at hrev; simp at hrev
    | c :: w =>
      rw [hr] at hrev
      simp only [List.head?_cons, Option.some.injEq] at hrev
      subst hrev
      have hd2 : (125 :: w).dropWhile jsTrimWs = 125 :: w := by
        rw [List.dropWhile_cons]
        simp [jsTrimWs]
      rw [hd2, ← hr, List.reverse_reverse]

theorem processLines_objs (L : List (List Nat))
    (h : ∀ m ∈ L, trimBytes m = m ∧ jsonOk m = true ∧ m ≠ []) :
    processLines L =
      (L, (L.map (fun m => m ++ [10])).flatten.length, 0) := by
  induction L with
  | nil => rfl
  | cons m L2 ih =>
    obtain ⟨ht, hok, hne⟩ := h m (List.mem_cons_self _ _)
    rw [processLines, ht]
    have hlen : ¬ m.length = 0 := by
      intro he
      exact hne (List.length_eq_zero.mp he)
    rw [if_neg hlen, if_pos hok,
      ih (fun m2 hm2 => h m2 (List.mem_cons_of_mem _ hm2))]
    simp only [List.map_cons, List.flatten_cons, List.length_append,
      List.length_append, List.length_cons, List.length_nil,
      Prod.mk.injEq]

theorem append_split_le {α : Type} (a b c d : List α) (h : a ++ b = c ++ d)
    (hle : c.length ≤ a.length) : ∃ e, a = c ++ e ∧ e ++ b = d := by
  have h2 : c ++ d = a.take c.length ++ (a.drop c.length ++ b) := by
    rw [← List.append_assoc, List.take_append_drop]
    exact h.symm
  have hlen : c.length = (a.take c.length).length := by
    rw [List.length_take]
    omega
  obtain ⟨hc, hd⟩ := List.append_inj h2 hlen
  refine ⟨a.drop c.length, ?_, hd.symm⟩
  calc a = a.take c.length ++ a.drop c.length :=
        (List.take_append_drop _ _).symm
    _ = c ++ a.drop c.length :=
        congrArg (fun x => x ++ a.drop c.length) hc.symm

theorem prefix_short {α : Type} (a b c d : List α) (h : a ++ b = c ++ d)
    (hle : a.length ≤ c.length) : a = c.take a.length := by
  have h2 : a ++ b = c.take a.length ++ (c.drop a.length ++ d) := by
    rw [← List.append_assoc, List.take_append_drop]
    exact h
  have hlen : a.length = (c.take a.length).length := by
    rw [List.length_take]
    omega
  exact (List.append_inj h2 hlen).1

theorem decomp_blocks :
    ∀ (L : List (List Nat)) (B t : List Nat),
      (∀ m ∈ L, m ≠ []) →
      B ++ t = (L.map (fun m => m ++ [10])).flatten →
      ∃ j p, j ≤ L.length ∧
        B = ((L.take j).map (fun m => m ++ [10])).flatten ++ p ∧
        ((∃ m L2, L.drop j = m :: L2 ∧ ∃ y, y ≤ m.length ∧ p = m.take y) ∨
         (j = L.length ∧ p = [])) := by
  intro L
  induction L with
  | nil =>
    intro B t _ h
    simp only [List.map_nil, List.flatten_nil, List.append_eq_nil] at h
    exact ⟨0, [], by simp, by simp [h.1], Or.inr ⟨rfl, rfl⟩⟩
  | cons m L2 ih =>
    intro B t hne h
    have h2 : B ++ t = (m ++ [10]) ++
        (L2.map (fun x => x ++ [10])).flatten := by
      rw [h]
      simp
    by_cases hlen : B.length ≤ m.length
    · refine ⟨0, B, by simp, by simp, Or.inl ⟨m, L2, by simp, B.length,
        hlen, ?_⟩⟩
      have hps := prefix_short B t (m ++ [10])
        ((L2.map (fun x => x ++ [10])).flatten) h2
        (by simp only [List.length_append, List.length_cons,
          List.length_nil]; omega)
      calc B = (m ++ [10]).take B.length := hps
        _ = m.take B.length := List.take_append_of_le_length hlen
    · have hsplit := append_split_le B t (m ++ [10])
        ((L2.map (fun x => x ++ [10])).flatten) h2
        (by simp only [List.length_append, List.length_cons,
          List.length_nil]; omega)
      obtain ⟨e, hBe, het⟩ := hsplit
      obtain ⟨j, p, hj, hd, hshape⟩ := ih e t
        (fun m2 hm2 => hne m2 (List.mem_cons_of_mem _ hm2)) het
      refine ⟨j + 1, p, by simp only [List.length_cons]; omega, ?_, ?_⟩
      · rw [hBe, hd]
        simp [List.append_assoc]
      · rcases hshape with ⟨m2, L3, hdrop, y, hy, hp⟩ | ⟨hj2, hp⟩
        · exact Or.inl ⟨m2, L3, by simpa using hdrop, y, hy, hp⟩
        · exact Or.inr ⟨by simp only [List.length_cons]; omega, hp⟩

theorem decomp_cat :
    ∀ (L : List (List Nat)) (B t : List Nat),
      (∀ m ∈ L, m ≠ []) →
      B ++ t = L.flatten →
      ∃ j p, j ≤ L.length ∧
        B = (L.take j).flatten ++ p ∧
        ((∃ m L2, L.drop j = m :: L2 ∧ ∃ y, y < m.length ∧ p = m.take y) ∨
         (j = L.length ∧ p = [])) := by
  intro L
  induction L with
  | nil =>
    intro B t _ h
    simp only [List.flatten_nil, List.append_eq_nil] at h
    exact ⟨0, [], by simp, by simp [h.1], Or.inr ⟨rfl, rfl⟩⟩
  | cons m L2 ih =>
    intro B t hne h
    have h2 : B ++ t = m ++ L2.flatten := by
      rw [h]
      simp
    by_cases hlen : B.length < m.length
    · refine ⟨0, B, by simp, by simp, Or.inl ⟨m, L2, by simp, B.length,
        hlen, ?_⟩⟩
      exact prefix_short B t m L2.flatten h2 (by omega)
    · have hsplit := append_split_le B t m L2.flatten h2 (by omega)
      obtain ⟨e, hBe, het⟩ := hsplit
      obtain ⟨j, p, hj, hd, hshape⟩ := ih e t
        (fun m2 hm2 => hne m2 (List.mem_cons_of_mem _ hm2)) het
      refine ⟨j + 1, p, by simp only [List.length_cons]; omega, ?_, ?_⟩
      · rw [hBe, hd]
        simp [List.append_assoc]
      · rcases hshape with ⟨m2, L3, hdrop, y, hy, hp⟩ | ⟨hj2, hp⟩
        · exact Or.inl ⟨m2, L3, by simpa using hdrop, y, hy, hp⟩
        · exact Or.inr ⟨by simp only [List.length_cons]; omega, hp⟩

theorem nlStream_split (ms : List (List Nat)) (k : Nat) :
    nlStream ms = nlStream (ms.take k) ++ nlStream (ms.drop k) := by
  unfold nlStream
  rw [← List.flatten_append, ← List.map_append, List.take_append_drop]

theorem nlStream_drop_pos (ms : List (List Nat)) (k : Nat) :
    (nlStream ms).drop (posNL ms k) = nlStream (ms.drop k) := by
  rw [nlStream_split ms k]
  unfold posNL
  exact List.drop_left _ _

theorem posNL_le_length (ms : List (List Nat)) (k : Nat) :
    posNL ms k ≤ (nlStream ms).length := by
  rw [nlStream_split ms k]
  unfold posNL
  simp

theorem catStream_split (ms : List (List Nat)) (k : Nat) :
    catStream ms = catStream (ms.take k) ++ catStream (ms.drop k) := by
  unfold catStream
  rw [← List.flatten_append, List.take_append_drop]

theorem catStream_drop_pos (ms : List (List Nat)) (k : Nat) :
    (catStream ms).drop (posCat ms k) = catStream (ms.drop k) := by
  rw [catStream_split ms k]
  unfold posCat
  exact List.drop_left _ _

theorem posCat_le_length (ms : List (List Nat)) (k : Nat) :
    posCat ms k ≤ (catStream ms).length := by
  rw [catStream_split ms k]
  unfold posCat
  simp

theorem take_add_split {α : Type} (l : List α) (k j : Nat) :
    l.take (k + j) = l.take k ++ (l.drop k).take j := by
  rw [← List.take_add]

theorem posNL_add (ms : List (List Nat)) (k j : Nat) :
    posNL ms (k + j) = posNL ms k +
      (((ms.drop k).take j).map (fun m => m ++ [10])).flatten.length := by
  unfold posNL nlStream
  rw [take_add_split, List.map_append, List.flatten_append,
    List.length_append]

theorem posCat_add (ms : List (List Nat)) (k j : Nat) :
    posCat ms (k + j) = posCat ms k +
      (((ms.drop k).take j)).flatten.length := by
  unfold posCat catStream
  rw [take_add_split, List.flatten_append, List.length_append]

theorem posNL_succ (ms : List (List Nat)) (k : Nat) (m : List Nat)
    (rest : List (List Nat)) (h : ms.drop k = m :: rest) :
    posNL ms (k + 1) = posNL ms k + m.length + 1 := by
  rw [posNL_add ms k 1, h]
  simp
  omega

theorem posCat_succ (ms : List (List Nat)) (k : Nat) (m : List Nat)
    (rest : List (List Nat)) (h : ms.drop k = m :: rest) :
    posCat ms (k + 1) = posCat ms k + m.length := by
  rw [posCat_add ms k 1, h]
  simp

theorem drop_succ_of_drop {α : Type} (l : List α) (k : Nat) (m : α)
    (rest : List α) (h : l.drop k = m :: rest) : l.drop (k + 1) = rest := by
  rw [← List.drop_drop, h]
  rfl

theorem take_of_take_drop {α : Type} (l : List α) (a n j : Nat)
    (hj : j ≤ n) :
    ((l.drop a).take n).drop j = (l.drop (a + j)).take (n - j) := by
  rw [List.drop_take, List.drop_drop]

theorem seg_join (S : List Nat) (a n1 n2 : Nat) :
    (S.drop a).take n1 ++ (S.drop (a + n1)).take n2 =
      (S.drop a).take (n1 + n2) := by
  rw [List.take_add]
  congr 1
  rw [List.drop_drop]

theorem not_mem_of_contains_false (l : List Nat) (b : Nat)
    (h : l.contains b = false) : b ∉ l := by
  simpa using h

theorem contains_false_of_not_mem (l : List Nat) (b : Nat)
    (h : b ∉ l) : l.contains b = false := by
  simpa using h

theorem flatten_no10 (L : List (List Nat))
    (h : ∀ m ∈ L, m.contains 10 = false) : 10 ∉ L.flatten := by
  intro hmem
  rw [List.mem_flatten] at hmem
  obtain ⟨l, hl, hm⟩ := hmem
  exact not_mem_of_contains_false l 10 (h l hl) hm

theorem segment_no10 (S : List Nat) (a n : Nat) (h : 10 ∉ S) :
    ((S.drop a).take n).contains 10 = false := by
  refine contains_false_of_not_mem _ _ (fun hmem => h ?_)
  exact List.mem_of_mem_drop (List.mem_of_mem_take hmem)

/-- Evaluate `processDataCore` once the concatenated buffer and the absence
of overflow are known. -/
theorem processDataCore_eval (bufsz : Nat) (buf data B : List Nat)
    (hB : buf ++ data = B) (hov : ¬ bufsz < B.length) :
    processDataCore bufsz buf data =
      if B.contains 10 then
        (let r := processNewlineSeparated B
         if 0 < r.1.length then r
         else
           let b := processBraceCounting r.2.1
           (b.1, r.2.1.drop b.2.1, r.2.2 + b.2.2))
      else
        (let b := processBraceCounting B
         (b.1, B.drop b.2.1, b.2.2)) := by
  unfold processDataCore
  have hl : buf.length + data.length = B.length := by
    rw [← List.length_append, hB]
  rw [hl, if_neg hov, hB]

/-- The brace-counting path on a buffer in which no complete object is found
delivers nothing and consumes nothing. -/
theorem processBraceCounting_none (p : List Nat)
    (hp : findCompleteJSON p = none) :
    processBraceCounting p = ([], 0, 0) := by
  have := processBraceCounting_objs [] p (by simp) hp
  simpa using this

/-- The brace-counting path on exactly one complete valid object delivers it
and consumes all of it. -/
theorem processBraceCounting_single (m : List Nat)
    (h1 : ObjScanOK m) (h2 : jsonOk m = true) :
    processBraceCounting m = ([m], m.length, 0) := by
  have := processBraceCounting_objs [m] []
    (by intro x hx; rw [List.mem_singleton] at hx; subst hx; exact ⟨h1, h2⟩)
    findCompleteJSON_nil
  simpa using this

theorem processNewlineSeparated_eval (B : List Nat)
    (lines msgs : List (List Nat)) (consumed errs : Nat)
    (hsplit : splitOnNL B = lines)
    (hpl : processLines lines.dropLast = (msgs, consumed, errs)) :
    processNewlineSeparated B = (msgs, B.drop consumed, errs) := by
  unfold processNewlineSeparated
  rw [hsplit, hpl]

/-- Feeding any next segment of the concatenated stream preserves the
parser-state invariant `InvCat`. -/
theorem stepCat (ms : List (List Nat)) (bufsz : Nat)
    (hv : ∀ m ∈ ms, ValidObj m) (hbs : (catStream ms).length ≤ bufsz)
    (f n : Nat) (out : List (List Nat)) (buf : List Nat)
    (hinv : InvCat ms f out buf) (hfn : f + n ≤ (catStream ms).length) :
    InvCat ms (f + n)
      (out ++ (processDataCore bufsz buf
        (((catStream ms).drop f).take n)).1)
      (processDataCore bufsz buf (((catStream ms).drop f).take n)).2.1 := by
  obtain ⟨k, hk, hout, hfS, hpos, hbuf, _⟩ := hinv
  have hfa : posCat ms k + (f - posCat ms k) = f := by omega
  have hBeq : buf ++ ((catStream ms).drop f).take n =
      ((catStream ms).drop (posCat ms k)).take ((f - posCat ms k) + n) := by
    have h1 := seg_join (catStream ms) (posCat ms k) (f - posCat ms k) n
    rw [hfa] at h1
    rw [hbuf]
    exact h1
  have hSa : ((catStream ms).drop (posCat ms k)).length =
      (catStream ms).length - posCat ms k := List.length_drop _ _
  have hBlen : (((catStream ms).drop (posCat ms k)).take
      ((f - posCat ms k) + n)).length = (f - posCat ms k) + n := by
    rw [List.length_take, hSa]
    omega
  have hov : ¬ bufsz < (((catStream ms).drop (posCat ms k)).take
      ((f - posCat ms k) + n)).length := by
    rw [hBlen]; omega
  have hS10 : 10 ∉ catStream ms :=
    flatten_no10 ms (fun m hm => (hv m hm).2.2)
  have hnoNL : (((catStream ms).drop (posCat ms k)).take
      ((f - posCat ms k) + n)).contains 10 = false :=
    segment_no10 _ _ _ hS10
  have hcore := processDataCore_eval bufsz buf
    (((catStream ms).drop f).take n) _ hBeq hov
  simp only [hnoNL, Bool.false_eq_true, if_false] at hcore
  have hne : ∀ m ∈ ms.drop k, m ≠ [] :=
    fun m hm => ObjScanOK_ne_nil m (hv m (List.mem_of_mem_drop hm)).1
  have hBt : (((catStream ms).drop (posCat ms k)).take
        ((f - posCat ms k) + n)) ++
      (((catStream ms).drop (posCat ms k)).drop ((f - posCat ms k) + n)) =
      (ms.drop k).flatten := by
    rw [List.take_append_drop, catStream_drop_pos]
    rfl
  obtain ⟨j, p, hj, hB2, hcase⟩ := decomp_cat (ms.drop k) _ _ hne hBt
  have hvL : ∀ m ∈ (ms.drop k).take j, ObjScanOK m ∧ jsonOk m = true := by
    intro m hm
    have h := hv m (List.mem_of_mem_drop (List.mem_of_mem_take hm))
    exact ⟨h.1, h.2.1⟩
  have hpnone : findCompleteJSON p = none := by
    rcases hcase with ⟨m, L2, hdrop, y, hy, hp⟩ | ⟨hj2, hp⟩
    · subst hp
      have hmem : m ∈ ms :=
        List.mem_of_mem_drop (List.mem_of_mem_drop
          (hdrop ▸ List.mem_cons_self m L2))
      exact findCompleteJSON_obj_take m y (hv m hmem).1 hy
    · subst hp
      exact findCompleteJSON_nil
  have hpbc : processBraceCounting (((catStream ms).drop (posCat ms k)).take
      ((f - posCat ms k) + n)) =
      ((ms.drop k).take j, ((ms.drop k).take j).flatten.length, 0) := by
    rw [hB2]
    exact processBraceCounting_objs _ p hvL hpnone
  rw [hcore, hpbc]
  dsimp only
  have hbl : ((ms.drop k).take j).flatten.length ≤ (f - posCat ms k) + n := by
    have := congrArg List.length hB2
    rw [hBlen, List.length_append] at this
    omega
  have hdropP : (((catStream ms).drop (posCat ms k)).take
      ((f - posCat ms k) + n)).drop ((ms.drop k).take j).flatten.length
      = p := by
    rw [hB2]
    exact List.drop_left _ _
  have hplen : p.length =
      (f - posCat ms k) + n - ((ms.drop k).take j).flatten.length := by
    have := congrArg List.length hB2
    rw [hBlen, List.length_append] at this
    omega
  have hpos2 : posCat ms (k + j) =
      posCat ms k + ((ms.drop k).take j).flatten.length := posCat_add ms k j
  unfold InvCat
  refine ⟨k + j, ?_, ?_, hfn, ?_, ?_, ?_⟩
  · have := List.length_drop k ms
    omega
  · rw [hout, ← take_add_split]
  · omega
  · rw [take_of_take_drop _ _ _ _ hbl, hpos2]
    congr 1
    omega
  · rcases hcase with ⟨m, L2, hdrop, y, hy, hp⟩ | ⟨hj2, hp⟩
    · right
      have hdd : ms.drop (k + j) = m :: L2 := by
        rw [List.drop_drop] at hdrop
        exact hdrop
      have hnl : nextLen ms (k + j) = m.length := by
        simp [nextLen, hdd]
      rw [hnl]
      have hpy : p.length = y := by
        rw [hp, List.length_take]
        omega
      omega
    · left
      have := List.length_drop k ms
      omega

theorem contains_true_of_mem (l : List Nat) (b : Nat) (h : b ∈ l) :
    l.contains b = true := by
  simpa using h

theorem take_contains_false (m : List Nat) (y : Nat)
    (h : m.contains 10 = false) : (m.take y).contains 10 = false :=
  contains_false_of_not_mem _ _
    (fun hmem => not_mem_of_contains_false m 10 h (List.mem_of_mem_take hmem))

/-- The newline path on a buffer made of whole newline-terminated valid
objects followed by a newline-free remainder delivers exactly those objects
and leaves the remainder buffered. -/
theorem procNL_blocks (Tj : List (List Nat)) (p : List Nat)
    (hT : ∀ m ∈ Tj, ObjScanOK m ∧ jsonOk m = true ∧ m.contains 10 = false)
    (hp : p.contains 10 = false) :
    processNewlineSeparated ((Tj.map (fun m => m ++ [10])).flatten ++ p) =
      (Tj, p, 0) := by
  have hsplit : splitOnNL ((Tj.map (fun m => m ++ [10])).flatten ++ p) =
      Tj ++ [p] :=
    splitOnNL_blocks Tj p (fun m hm => (hT m hm).2.2) hp
  have hpl : processLines (Tj ++ [p]).dropLast =
      (Tj, (Tj.map (fun m => m ++ [10])).flatten.length, 0) := by
    rw [List.dropLast_concat]
    exact processLines_objs Tj (fun m hm =>
      ⟨trimBytes_obj m (hT m hm).1.1 (ObjScanOK_last m (hT m hm).1),
       (hT m hm).2.1, ObjScanOK_ne_nil m (hT m hm).1⟩)
  rw [processNewlineSeparated_eval _ _ _ _ _ hsplit hpl, List.drop_left]

/-- As `procNL_blocks`, for a buffer that starts with a leftover newline
(the newline of a message already delivered by the brace-counting path):
the leading empty line is skipped. -/
theorem procNL_empty_blocks (Tj : List (List Nat)) (p : List Nat)
    (hT : ∀ m ∈ Tj, ObjScanOK m ∧ jsonOk m = true ∧ m.contains 10 = false)
    (hp : p.contains 10 = false) :
    processNewlineSeparated
        (10 :: ((Tj.map (fun m => m ++ [10])).flatten ++ p)) =
      (Tj, p, 0) := by
  have hsplit : splitOnNL
      (10 :: ((Tj.map (fun m => m ++ [10])).flatten ++ p)) =
      ([] : List Nat) :: (Tj ++ [p]) := by
    have h0 := splitOnNL_append []
      ((Tj.map (fun m => m ++ [10])).flatten ++ p) (by decide)
    rw [List.nil_append] at h0
    rw [h0, splitOnNL_blocks Tj p (fun m hm => (hT m hm).2.2) hp]
  have hpl : processLines (([] : List Nat) :: (Tj ++ [p])).dropLast =
      (Tj, 1 + (Tj.map (fun m => m ++ [10])).flatten.length, 0) := by
    have hcons : (([] : List Nat) :: (Tj ++ [p])) =
        (([] : List Nat) :: Tj) ++ [p] := by simp
    rw [hcons, List.dropLast_concat]
    rw [processLines]
    rw [processLines_objs Tj (fun m hm =>
      ⟨trimBytes_obj m (hT m hm).1.1 (ObjScanOK_last m (hT m hm).1),
       (hT m hm).2.1, ObjScanOK_ne_nil m (hT m hm).1⟩)]
    simp [trimBytes, jsTrimWs]
  rw [processNewlineSeparated_eval _ _ _ _ _ hsplit hpl]
  have hd : (10 :: ((Tj.map (fun m => m ++ [10])).flatten ++ p)).drop
      (1 + (Tj.map (fun m => m ++ [10])).flatten.length) = p := by
    rw [Nat.add_comm, List.drop_succ_cons, List.drop_left]
  rw [hd]

/-- Feeding any next segment of the newline-separated stream from a state in
which the buffer is a segment of the current message block preserves the
invariant `InvNL`. -/
theorem stepNL_d2 (ms : List (List Nat)) (bufsz : Nat)
    (hv : ∀ m ∈ ms, ValidObj m) (hbs : (nlStream ms).length ≤ bufsz)
    (f n : Nat) (out : List (List Nat)) (buf : List Nat) (k : Nat)
    (hk : k ≤ ms.length) (hout : out = ms.take k)
    (hpos : posNL ms k ≤ f)
    (hbuf : buf = ((nlStream ms).drop (posNL ms k)).take (f - posNL ms k))
    (hfn : f + n ≤ (nlStream ms).length) :
    InvNL ms (f + n)
      (out ++ (processDataCore bufsz buf
        (((nlStream ms).drop f).take n)).1)
      (processDataCore bufsz buf (((nlStream ms).drop f).take n)).2.1 := by
  have hfa : posNL ms k + (f - posNL ms k) = f := by omega
  have hBeq : buf ++ ((nlStream ms).drop f).take n =
      ((nlStream ms).drop (posNL ms k)).take ((f - posNL ms k) + n) := by
    have h1 := seg_join (nlStream ms) (posNL ms k) (f - posNL ms k) n
    rw [hfa] at h1
    rw [hbuf]
    exact h1
  have hBlen : (((nlStream ms).drop (posNL ms k)).take
      ((f - posNL ms k) + n)).length = (f - posNL ms k) + n := by
    rw [List.length_take, List.length_drop]
    omega
  have hov : ¬ bufsz < (((nlStream ms).drop (posNL ms k)).take
      ((f - posNL ms k) + n)).length := by
    rw [hBlen]; omega
  have hcore := processDataCore_eval bufsz buf
    (((nlStream ms).drop f).take n) _ hBeq hov
  have hBt : (((nlStream ms).drop (posNL ms k)).take
        ((f - posNL ms k) + n)) ++
      (((nlStream ms).drop (posNL ms k)).drop ((f - posNL ms k) + n)) =
      ((ms.drop k).map (fun m => m ++ [10])).flatten := by
    rw [List.take_append_drop, nlStream_drop_pos]
    rfl
  have hne : ∀ m ∈ ms.drop k, m ≠ [] :=
    fun m hm => ObjScanOK_ne_nil m (hv m (List.mem_of_mem_drop hm)).1
  obtain ⟨j, p, hj, hB2, hcase⟩ := decomp_blocks (ms.drop k) _ _ hne hBt
  have hp10 : p.contains 10 = false := by
    rcases hcase with ⟨m, L2, hdrop, y, hy, hp⟩ | ⟨_, hp⟩
    · subst hp
      have hmm : m ∈ ms :=
        List.mem_of_mem_drop (List.mem_of_mem_drop
          (hdrop ▸ List.mem_cons_self m L2))
      exact take_contains_false m y (hv m hmm).2.2
    · subst hp
      rfl
  rcases Nat.eq_zero_or_pos j with hj0 | hj1
  · -- no full newline-terminated block inside the working buffer
    subst hj0
    simp only [List.take_zero, List.map_nil, List.flatten_nil,
      List.nil_append] at hB2
    have hnoNL : (((nlStream ms).drop (posNL ms k)).take
        ((f - posNL ms k) + n)).contains 10 = false := hB2 ▸ hp10
    simp only [hnoNL, Bool.false_eq_true, if_false] at hcore
    rcases hcase with ⟨m, L2, hdrop, y, hy, hp⟩ | ⟨hj2, hp⟩
    · have hdropk : ms.drop k = m :: L2 := by simpa using hdrop
      have hmm : m ∈ ms :=
        List.mem_of_mem_drop (hdropk ▸ List.mem_cons_self m L2)
      have hplen : p.length = y := by
        rw [hp, List.length_take]
        omega
      have hnl : nextLen ms k = m.length := by
        simp [nextLen, hdropk]
      rcases Nat.lt_or_ge y m.length with hylt | hyge
      · have hbc : processBraceCounting (((nlStream ms).drop (posNL ms k)).take
            ((f - posNL ms k) + n)) = ([], 0, 0) := by
          rw [hB2, hp]
          exact processBraceCounting_none _
            (findCompleteJSON_obj_take m y (hv m hmm).1 hylt)
        rw [hcore, hbc]
        dsimp only
        unfold InvNL
        refine ⟨k, hk, by simpa using hout, hfn,
          Or.inr ⟨hpos.trans (Nat.le_add_right f n), ?_, ?_⟩⟩
        · rw [List.drop_zero]
          congr 1
          omega
        · rw [hnl]
          have := congrArg List.length hB2
          rw [hBlen] at this
          omega
      · have hym : y = m.length := Nat.le_antisymm hy hyge
        have hpm : p = m := by rw [hp, hym, List.take_length]
        have hbc : processBraceCounting (((nlStream ms).drop (posNL ms k)).take
            ((f - posNL ms k) + n)) = ([m], m.length, 0) := by
          rw [hB2, hpm]
          exact processBraceCounting_single m (hv m hmm).1 (hv m hmm).2.1
        rw [hcore, hbc]
        dsimp only
        have hml : m.length = (f - posNL ms k) + n := by
          have := congrArg List.length hB2
          rw [hBlen, hpm] at this
          omega
        unfold InvNL
        refine ⟨k + 1, ?_, ?_, hfn, Or.inl ⟨by omega, ?_, ?_⟩⟩
        · have := List.length_drop k ms
          rw [hdropk] at this
          simp only [List.length_cons] at this
          omega
        · rw [hout, take_add_split ms k 1, hdropk]
          simp
        · have hps := posNL_succ ms k m L2 hdropk
          omega
        · rw [hB2, hpm]
          exact List.drop_length m
    · have hkN : k = ms.length := by
        have := List.length_drop k ms
        omega
      have hB0 : (((nlStream ms).drop (posNL ms k)).take
          ((f - posNL ms k) + n)) = [] := by rw [hB2, hp]
      have hbc : processBraceCounting (((nlStream ms).drop (posNL ms k)).take
          ((f - posNL ms k) + n)) = ([], 0, 0) := by
        rw [hB0]
        exact processBraceCounting_none [] findCompleteJSON_nil
      rw [hcore, hbc]
      dsimp only
      have hz : (f - posNL ms k) + n = 0 := by
        have := congrArg List.length hB0
        rw [hBlen] at this
        simpa using this
      unfold InvNL
      refine ⟨k, hk, by simpa using hout, hfn,
        Or.inr ⟨hpos.trans (Nat.le_add_right f n), ?_, ?_⟩⟩
      · rw [List.drop_zero]
        congr 1
        omega
      · omega
  · -- at least one full newline-terminated block: the newline path fires
    have h0 : 0 < ((ms.drop k).take j).length := by
      rw [List.length_take]
      omega
    have h10B : 10 ∈ (((nlStream ms).drop (posNL ms k)).take
        ((f - posNL ms k) + n)) := by
      rw [hB2]
      rcases hTj : (ms.drop k).take j with _ | ⟨m1, Tj2⟩
      · rw [hTj] at h0
        simp at h0
      · simp
    have hB10 : (((nlStream ms).drop (posNL ms k)).take
        ((f - posNL ms k) + n)).contains 10 = true :=
      contains_true_of_mem _ _ h10B
    have hTj : ∀ m ∈ (ms.drop k).take j,
        ObjScanOK m ∧ jsonOk m = true ∧ m.contains 10 = false :=
      fun m hm => hv m (List.mem_of_mem_drop (List.mem_of_mem_take hm))
    have hval : processDataCore bufsz buf (((nlStream ms).drop f).take n) =
        ((ms.drop k).take j, p, 0) := by
      rw [hcore, if_pos hB10]
      have hpn : processNewlineSeparated
          (((nlStream ms).drop (posNL ms k)).take ((f - posNL ms k) + n)) =
          ((ms.drop k).take j, p, 0) := by
        rw [hB2]
        exact procNL_blocks _ p hTj hp10
      rw [hpn]
      dsimp only
      rw [if_pos h0]
    rw [hval]
    dsimp only
    have hbl : ((((ms.drop k).take j).map
        (fun m => m ++ [10])).flatten).length ≤ (f - posNL ms k) + n := by
      have := congrArg List.length hB2
      rw [hBlen, List.length_append] at this
      omega
    have hplen2 : p.length = (f - posNL ms k) + n -
        ((((ms.drop k).take j).map (fun m => m ++ [10])).flatten).length := by
      have := congrArg List.length hB2
      rw [hBlen, List.length_append] at this
      omega
    have hpos2 : posNL ms (k + j) = posNL ms k +
        ((((ms.drop k).take j).map (fun m => m ++ [10])).flatten).length :=
      posNL_add ms k j
    have hdropP : (((nlStream ms).drop (posNL ms k)).take
        ((f - posNL ms k) + n)).drop
        ((((ms.drop k).take j).map (fun m => m ++ [10])).flatten).length
        = p := by
      rw [hB2]
      exact List.drop_left _ _
    unfold InvNL
    refine ⟨k + j, ?_, ?_, hfn, Or.inr ⟨?_, ?_, ?_⟩⟩
    · have := List.length_drop k ms
      omega
    · rw [hout, ← take_add_split]
    · omega
    · rw [← hdropP, take_of_take_drop _ _ _ _ hbl, hpos2]
      congr 1
      omega
    · rcases hcase with ⟨m, L2, hdrop, y, hy, hp⟩ | ⟨hj2, hp⟩
      · have hdd : ms.drop (k + j) = m :: L2 := by
          rw [List.drop_drop] at hdrop
          exact hdrop
        have hnl : nextLen ms (k + j) = m.length := by
          simp [nextLen, hdd]
        rw [hnl]
        have hpy : p.length = y := by
          rw [hp, List.length_take]
          omega
        omega
      · have hnl0 : p.length = 0 := by rw [hp]; rfl
        omega

theorem nlStream_cons (m : List Nat) (R : List (List Nat)) :
    nlStream (m :: R) = (m ++ [10]) ++ nlStream R := by
  simp [nlStream]

/-- Feeding any next segment of the newline-separated stream from a state in
which the buffer is empty and the stream sits just before the newline of the
message delivered last preserves the invariant `InvNL`. -/
theorem stepNL_d1 (ms : List (List Nat)) (bufsz : Nat)
    (hv : ∀ m ∈ ms, ValidObj m) (hbs : (nlStream ms).length ≤ bufsz)
    (f n : Nat) (out : List (List Nat)) (k : Nat)
    (hk : k ≤ ms.length) (hout : out = ms.take k)
    (hk1 : 1 ≤ k) (hf1 : f + 1 = posNL ms k)
    (hfn : f + n ≤ (nlStream ms).length) :
    InvNL ms (f + n)
      (out ++ (processDataCore bufsz []
        (((nlStream ms).drop f).take n)).1)
      (processDataCore bufsz [] (((nlStream ms).drop f).take n)).2.1 := by
  have hkk : k - 1 + 1 = k := by omega
  have hdlen : (ms.drop (k - 1)).length = ms.length - (k - 1) :=
    List.length_drop _ _
  rcases hmsd : ms.drop (k - 1) with _ | ⟨m0, R⟩
  · rw [hmsd] at hdlen
    simp only [List.length_nil] at hdlen
    omega
  have hR : ms.drop k = R := by
    have h := drop_succ_of_drop ms (k - 1) m0 R hmsd
    rw [hkk] at h
    exact h
  have hps := posNL_succ ms (k - 1) m0 R hmsd
  rw [hkk] at hps
  have hfval : f = posNL ms (k - 1) + m0.length := by omega
  have hSf : (nlStream ms).drop f = 10 :: nlStream (ms.drop k) := by
    rw [hfval, ← List.drop_drop, nlStream_drop_pos, hmsd, hR,
      nlStream_cons, List.append_assoc, List.singleton_append]
    exact List.drop_left m0 _
  cases n with
  | zero =>
    rw [List.take_zero]
    have hov : ¬ bufsz < ([] : List Nat).length := by simp
    have hcore := processDataCore_eval bufsz [] [] []
      (List.nil_append []) hov
    have hnoNL : ([] : List Nat).contains 10 = false := rfl
    simp only [hnoNL, Bool.false_eq_true, if_false] at hcore
    have hbc : processBraceCounting [] = ([], 0, 0) :=
      processBraceCounting_none [] findCompleteJSON_nil
    rw [hcore, hbc]
    dsimp only
    unfold InvNL
    exact ⟨k, hk, by simpa using hout, by omega,
      Or.inl ⟨hk1, by omega, rfl⟩⟩
  | succ n2 =>
    have hc : ((nlStream ms).drop f).take (n2 + 1) =
        10 :: (nlStream (ms.drop k)).take n2 := by
      rw [hSf, List.take_succ_cons]
    have hZlen : (nlStream (ms.drop k)).length =
        (nlStream ms).length - posNL ms k := by
      rw [← nlStream_drop_pos]
      exact List.length_drop _ _
    have hB2len : ((nlStream (ms.drop k)).take n2).length = n2 := by
      rw [List.length_take, hZlen]
      omega
    have hne : ∀ m ∈ ms.drop k, m ≠ [] :=
      fun m hm => ObjScanOK_ne_nil m (hv m (List.mem_of_mem_drop hm)).1
    have hBt : (nlStream (ms.drop k)).take n2 ++
        (nlStream (ms.drop k)).drop n2 =
        ((ms.drop k).map (fun m => m ++ [10])).flatten := by
      rw [List.take_append_drop]
      rfl
    obtain ⟨j, p, hj, hB2, hcase⟩ := decomp_blocks (ms.drop k) _ _ hne hBt
    have hp10 : p.contains 10 = false := by
      rcases hcase with ⟨m, L2, hdrop, y, hy, hp⟩ | ⟨_, hp⟩
      · subst hp
        have hmm : m ∈ ms :=
          List.mem_of_mem_drop (List.mem_of_mem_drop
            (hdrop ▸ List.mem_cons_self m L2))
        exact take_contains_false m y (hv m hmm).2.2
      · subst hp
        rfl
    have hclen : (((nlStream ms).drop f).take (n2 + 1)).length = n2 + 1 := by
      rw [List.length_take, List.length_drop]
      omega
    have hov : ¬ bufsz < (((nlStream ms).drop f).take (n2 + 1)).length := by
      rw [hclen]; omega
    have hcore := processDataCore_eval bufsz []
      (((nlStream ms).drop f).take (n2 + 1)) _
      (List.nil_append _) hov
    have hB10 : (((nlStream ms).drop f).take (n2 + 1)).contains 10 = true := by
      rw [hc]
      exact contains_true_of_mem _ _ (List.mem_cons_self _ _)
    have hTj : ∀ m ∈ (ms.drop k).take j,
        ObjScanOK m ∧ jsonOk m = true ∧ m.contains 10 = false :=
      fun m hm => hv m (List.mem_of_mem_drop (List.mem_of_mem_take hm))
    have hpn : processNewlineSeparated
        (((nlStream ms).drop f).take (n2 + 1)) =
        ((ms.drop k).take j, p, 0) := by
      rw [hc, hB2]
      exact procNL_empty_blocks _ p hTj hp10
    rcases Nat.eq_zero_or_pos j with hj0 | hj1
    · -- no full block in the chunk: the newline path consumes only the
      -- leading newline and the brace path runs on the remainder
      subst hj0
      simp only [List.take_zero, List.map_nil, List.flatten_nil,
        List.nil_append] at hB2
      have hval0 : processDataCore bufsz []
          (((nlStream ms).drop f).take (n2 + 1)) =
          ((processBraceCounting p).1,
            p.drop (processBraceCounting p).2.1,
            0 + (processBraceCounting p).2.2) := by
        rw [hcore, if_pos hB10, hpn]
        dsimp only
        rw [if_neg (by simp)]
      rcases hcase with ⟨m, L2, hdrop, y, hy, hp⟩ | ⟨hj2, hp⟩
      · have hdropk : ms.drop k = m :: L2 := by simpa using hdrop
        have hmm : m ∈ ms :=
          List.mem_of_mem_drop (hdropk ▸ List.mem_cons_self m L2)
        have hplen : p.length = y := by
          rw [hp, List.length_take]
          omega
        have hn2y : n2 = y := by
          rw [← hB2] at hplen
          rw [hB2len] at hplen
          omega
        rcases Nat.lt_or_ge y m.length with hylt | hyge
        · have hbc : processBraceCounting p = ([], 0, 0) := by
            rw [hp]
            exact processBraceCounting_none _
              (findCompleteJSON_obj_take m y (hv m hmm).1 hylt)
          rw [hval0, hbc]
          dsimp only
          have hnl : nextLen ms k = m.length := by
            simp [nextLen, hdropk]
          unfold InvNL
          refine ⟨k, hk, by simpa using hout, hfn,
            Or.inr ⟨by omega, ?_, ?_⟩⟩
          · rw [List.drop_zero, ← hB2, ← nlStream_drop_pos]
            congr 1
            omega
          · rw [hnl]
            omega
        · have hym : y = m.length := Nat.le_antisymm hy hyge
          have hpm : p = m := by rw [hp, hym, List.take_length]
          have hbc : processBraceCounting p = ([m], m.length, 0) := by
            rw [hpm]
            exact processBraceCounting_single m (hv m hmm).1 (hv m hmm).2.1
          rw [hval0, hbc]
          dsimp only
          unfold InvNL
          refine ⟨k + 1, ?_, ?_, hfn, Or.inl ⟨by omega, ?_, ?_⟩⟩
          · have := List.length_drop k ms
            rw [hdropk] at this
            simp only [List.length_cons] at this
            omega
          · rw [hout, take_add_split ms k 1, hdropk]
            simp
          · have hps2 := posNL_succ ms k m L2 hdropk
            omega
          · rw [hpm]
            exact List.drop_length m
      · have hkN : k = ms.length := by
          have := List.length_drop k ms
          omega
        have hp0 : p = [] := hp
        have hn20 : n2 = 0 := by
          rw [hp0] at hB2
          have := congrArg List.length hB2
          rw [hB2len] at this
          simpa using this
        have hbc : processBraceCounting p = ([], 0, 0) := by
          rw [hp0]
          exact processBraceCounting_none [] findCompleteJSON_nil
        rw [hval0, hbc]
        dsimp only
        unfold InvNL
        refine ⟨k, hk, by simpa using hout, hfn,
          Or.inr ⟨by omega, ?_, ?_⟩⟩
        · rw [List.drop_zero, hp0]
          have : f + (n2 + 1) - posNL ms k = 0 := by omega
          rw [this, List.take_zero]
        · omega
    · -- at least one full block after the leading newline
      have h0 : 0 < ((ms.drop k).take j).length := by
        rw [List.length_take]
        omega
      have hval : processDataCore bufsz []
          (((nlStream ms).drop f).take (n2 + 1)) =
          ((ms.drop k).take j, p, 0) := by
        rw [hcore, if_pos hB10, hpn]
        dsimp only
        rw [if_pos h0]
      rw [hval]
      dsimp only
      have hbl : ((((ms.drop k).take j).map
          (fun m => m ++ [10])).flatten).length ≤ n2 := by
        have := congrArg List.length hB2
        rw [hB2len, List.length_append] at this
        omega
      have hplen2 : p.length = n2 -
          ((((ms.drop k).take j).map (fun m => m ++ [10])).flatten).length := by
        have := congrArg List.length hB2
        rw [hB2len, List.length_append] at this
        omega
      have hpos2 : posNL ms (k + j) = posNL ms k +
          ((((ms.drop k).take j).map (fun m => m ++ [10])).flatten).length :=
        posNL_add ms k j
      have hdropP : ((nlStream (ms.drop k)).take n2).drop
          ((((ms.drop k).take j).map (fun m => m ++ [10])).flatten).length
          = p := by
        rw [hB2]
        exact List.drop_left _ _
      unfold InvNL
      refine ⟨k + j, ?_, ?_, hfn, Or.inr ⟨?_, ?_, ?_⟩⟩
      · have := List.length_drop k ms
        omega
      · rw [hout, ← take_add_split]
      · omega
      · rw [← hdropP, ← nlStream_drop_pos,
          take_of_take_drop _ _ _ _ hbl, hpos2]
        congr 1
        omega
      · rcases hcase with ⟨m, L2, hdrop, y, hy, hp⟩ | ⟨hj2, hp⟩
        · have hdd : ms.drop (k + j) = m :: L2 := by
            rw [List.drop_drop] at hdrop
            exact hdrop
          have hnl : nextLen ms (k + j) = m.length := by
            simp [nextLen, hdd]
          rw [hnl]
          have hpy : p.length = y := by
            rw [hp, List.length_take]
            omega
          omega
        · have hnl0 : p.length = 0 := by rw [hp]; rfl
          omega

/-- Feeding any next segment of the newline-separated stream preserves the
parser-state invariant `InvNL`. -/
theorem stepNL (ms : List (List Nat)) (bufsz : Nat)
    (hv : ∀ m ∈ ms, ValidObj m) (hbs : (nlStream ms).length ≤ bufsz)
    (f n : Nat) (out : List (List Nat)) (buf : List Nat)
    (hinv : InvNL ms f out buf) (hfn : f + n ≤ (nlStream ms).length) :
    InvNL ms (f + n)
      (out ++ (processDataCore bufsz buf
        (((nlStream ms).drop f).take n)).1)
      (processDataCore bufsz buf (((nlStream ms).drop f).take n)).2.1 := by
  obtain ⟨k, hk, hout, hfS, hd⟩ := hinv
  rcases hd with ⟨hk1, hf1, hbufnil⟩ | ⟨hpos, hbuf, _⟩
  · subst hbufnil
    exact stepNL_d1 ms bufsz hv hbs f n out k hk hout hk1 hf1 hfn
  · exact stepNL_d2 ms bufsz hv hbs f n out buf k hk hout hpos hbuf hfn

/-- `processAll` with a nonempty accumulator factors through the empty
accumulator. -/
theorem processAll_acc (cs : List (List Nat)) :
    ∀ (q : JSONParser) (out0 : List (List Nat)),
      cs.foldl (fun acc c =>
        let r := processData acc.2 c
        (acc.1 ++ r.1, r.2)) (out0, q) =
      (out0 ++ (processAll q cs).1, (processAll q cs).2) := by
  induction cs with
  | nil =>
    intro q out0
    simp [processAll]
  | cons c cs2 ih =>
    intro q out0
    simp only [processAll, List.foldl_cons]
    rw [ih, ih]
    simp

/-- Unfold one chunk of `processAll`. -/
theorem processAll_cons (q : JSONParser) (c : List Nat)
    (cs2 : List (List Nat)) :
    processAll q (c :: cs2) =
      ((processData q c).1 ++ (processAll (processData q c).2 cs2).1,
       (processAll (processData q c).2 cs2).2) := by
  unfold processAll
  rw [List.foldl_cons]
  dsimp only
  rw [List.nil_append]
  exact processAll_acc cs2 _ _

/-- Feeding any chunking of the remaining newline-separated stream carries
`InvNL` to the end of the stream. -/
theorem runNL (ms : List (List Nat)) (bufsz : Nat)
    (hv : ∀ m ∈ ms, ValidObj m) (hbs : (nlStream ms).length ≤ bufsz) :
    ∀ (cs : List (List Nat)) (f : Nat) (out : List (List Nat))
      (q : JSONParser),
      q.bufferSize = bufsz →
      InvNL ms f out q.buffer →
      cs.flatten = (nlStream ms).drop f →
      InvNL ms (nlStream ms).length (out ++ (processAll q cs).1)
        (processAll q cs).2.buffer := by
  intro cs
  induction cs with
  | nil =>
    intro f out q hq hinv hflat
    simp only [List.flatten_nil] at hflat
    have hfS : f ≤ (nlStream ms).length := by
      obtain ⟨k, _, _, hfS, _⟩ := hinv
      exact hfS
    have hge : (nlStream ms).length ≤ f := by
      have := congrArg List.length hflat
      simp only [List.length_nil, List.length_drop] at this
      omega
    have hf : f = (nlStream ms).length := by omega
    rw [← hf]
    simpa [processAll] using hinv
  | cons c cs2 ih =>
    intro f out q hq hinv hflat
    have hflat' : c ++ cs2.flatten = (nlStream ms).drop f := by
      simpa using hflat
    have hlen : c.length + cs2.flatten.length =
        (nlStream ms).length - f := by
      have := congrArg List.length hflat'
      simpa using this
    have hfS : f ≤ (nlStream ms).length := by
      obtain ⟨k, _, _, hfS, _⟩ := hinv
      exact hfS
    have hcpre : c = ((nlStream ms).drop f).take c.length := by
      refine prefix_short c cs2.flatten ((nlStream ms).drop f) [] ?_ ?_
      · rw [List.append_nil]
        exact hflat'
      · rw [List.length_drop]
        omega
    have hrest : cs2.flatten = (nlStream ms).drop (f + c.length) := by
      have h1 := congrArg (List.drop c.length) hflat'
      rw [List.drop_left] at h1
      rw [h1, List.drop_drop]
    have hfn : f + c.length ≤ (nlStream ms).length := by omega
    have hstep := stepNL ms bufsz hv hbs f c.length out q.buffer hinv hfn
    rw [← hcpre] at hstep
    rw [← hq] at hstep
    have hq2 : (processData q c).2.bufferSize = bufsz := by
      simp [processData, hq]
    have hbuf2 : (processData q c).2.buffer =
        (processDataCore q.bufferSize q.buffer c).2.1 := by
      simp [processData]
    have hout2 : (processData q c).1 =
        (processDataCore q.bufferSize q.buffer c).1 := by
      simp [processData]
    rw [processAll_cons]
    dsimp only
    rw [← List.append_assoc]
    refine ih (f + c.length) (out ++ (processData q c).1)
      (processData q c).2 hq2 ?_ hrest
    rw [hout2, hbuf2]
    exact hstep

/-- Feeding any chunking of the remaining concatenated stream carries
`InvCat` to the end of the stream. -/
theorem runCat (ms : List (List Nat)) (bufsz : Nat)
    (hv : ∀ m ∈ ms, ValidObj m) (hbs : (catStream ms).length ≤ bufsz) :
    ∀ (cs : List (List Nat)) (f : Nat) (out : List (List Nat))
      (q : JSONParser),
      q.bufferSize = bufsz →
      InvCat ms f out q.buffer →
      cs.flatten = (catStream ms).drop f →
      InvCat ms (catStream ms).length (out ++ (processAll q cs).1)
        (processAll q cs).2.buffer := by
  intro cs
  induction cs with
  | nil =>
    intro f out q hq hinv hflat
    simp only [List.flatten_nil] at hflat
    have hfS : f ≤ (catStream ms).length := by
      obtain ⟨k, _, _, hfS, _⟩ := hinv
      exact hfS
    have hge : (catStream ms).length ≤ f := by
      have := congrArg List.length hflat
      simp only [List.length_nil, List.length_drop] at this
      omega
    have hf : f = (catStream ms).length := by omega
    rw [← hf]
    simpa [processAll] using hinv
  | cons c cs2 ih =>
    intro f out q hq hinv hflat
    have hflat' : c ++ cs2.flatten = (catStream ms).drop f := by
      simpa using hflat
    have hlen : c.length + cs2.flatten.length =
        (catStream ms).length - f := by
      have := congrArg List.length hflat'
      simpa using this
    have hfS : f ≤ (catStream ms).length := by
      obtain ⟨k, _, _, hfS, _⟩ := hinv
      exact hfS
    have hcpre : c = ((catStream ms).drop f).take c.length := by
      refine prefix_short c cs2.flatten ((catStream ms).drop f) [] ?_ ?_
      · rw [List.append_nil]
        exact hflat'
      · rw [List.length_drop]
        omega
    have hrest : cs2.flatten = (catStream ms).drop (f + c.length) := by
      have h1 := congrArg (List.drop c.length) hflat'
      rw [List.drop_left] at h1
      rw [h1, List.drop_drop]
    have hfn : f + c.length ≤ (catStream ms).length := by omega
    have hstep := stepCat ms bufsz hv hbs f c.length out q.buffer hinv hfn
    rw [← hcpre] at hstep
    rw [← hq] at hstep
    have hq2 : (processData q c).2.bufferSize = bufsz := by
      simp [processData, hq]
    have hbuf2 : (processData q c).2.buffer =
        (processDataCore q.bufferSize q.buffer c).2.1 := by
      simp [processData]
    have hout2 : (processData q c).1 =
        (processDataCore q.bufferSize q.buffer c).1 := by
      simp [processData]
    rw [processAll_cons]
    dsimp only
    rw [← List.append_assoc]
    refine ih (f + c.length) (out ++ (processData q c).1)
      (processData q c).2 hq2 ?_ hrest
    rw [hout2, hbuf2]
    exact hstep

/-- Once the whole newline-separated stream has been fed, the invariant
forces every message to have been delivered. -/
theorem InvNL_end (ms : List (List Nat)) (out : List (List Nat))
    (buf : List Nat)
    (hinv : InvNL ms (nlStream ms).length out buf) : out = ms := by
  obtain ⟨k, hk, hout, _, hd⟩ := hinv
  have hple := posNL_le_length ms k
  rcases hd with ⟨hk1, hf1, _⟩ | ⟨hpos, hbuf, hnext⟩
  · omega
  · have hkN : k = ms.length := by
      by_contra hne
      have hlt : k < ms.length := by omega
      have hdlen : (ms.drop k).length = ms.length - k := List.length_drop _ _
      rcases hdk : ms.drop k with _ | ⟨m, L2⟩
      · rw [hdk] at hdlen
        simp only [List.length_nil] at hdlen
        omega
      have hZ : (nlStream ms).length - posNL ms k =
          (nlStream (ms.drop k)).length := by
        rw [← nlStream_drop_pos]
        exact (List.length_drop _ _).symm
      rw [hdk, nlStream_cons, List.length_append, List.length_append] at hZ
      have hnl : nextLen ms k = m.length := by
        simp [nextLen, hdk]
      rw [hnl] at hnext
      simp only [List.length_cons, List.length_nil] at hZ
      omega
    rw [hout, hkN, List.take_length]

/-- Once the whole concatenated stream has been fed, the invariant forces
every message to have been delivered. -/
theorem InvCat_end (ms : List (List Nat)) (out : List (List Nat))
    (buf : List Nat)
    (hinv : InvCat ms (catStream ms).length out buf) : out = ms := by
  obtain ⟨k, hk, hout, _, hpos, hbuf, hd⟩ := hinv
  rcases hd with hkN | hnext
  · rw [hout, hkN, List.take_length]
  · have hkN : k = ms.length := by
      by_contra hne
      have hlt : k < ms.length := by omega
      have hdlen : (ms.drop k).length = ms.length - k := List.length_drop _ _
      rcases hdk : ms.drop k with _ | ⟨m, L2⟩
      · rw [hdk] at hdlen
        simp only [List.length_nil] at hdlen
        omega
      have hZ : (catStream ms).length - posCat ms k =
          (catStream (ms.drop k)).length := by
        rw [← catStream_drop_pos]
        exact (List.length_drop _ _).symm
      rw [hdk] at hZ
      have hcl : (catStream (m :: L2)).length =
          m.length + (catStream L2).length := by
        simp [catStream]
      rw [hcl] at hZ
      have hnl : nextLen ms k = m.length := by
        simp [nextLen, hdk]
      rw [hnl] at hnext
      omega
    rw [hout, hkN, List.take_length]

/-- C1 (amended): for every finite sequence of valid JSON-object wire
messages — each accepted by `JSON.parse`, recognised by the depth-counting
scanner as one complete object exactly at its last byte, and containing no
newline byte — and for EVERY way of splitting the wire stream into chunks,
feeding the chunks one at a time through `JSONParser.processData` delivers
exactly that sequence of messages, in order, whether the messages are
newline-separated or directly concatenated, provided the whole stream fits
in the parser's buffer bound.  In particular any two chunkings (including
the single-chunk feed of the full concatenation) yield the same message
sequence.  The unamended claim, which also admits valid JSON objects
containing newline bytes inside them, is refuted by `C1_counterexample`. -/
theorem C1_chunking_agreement (ms : List (List Nat)) (bufsz : Nat)
    (S : List Nat) (cs : List (List Nat))
    (hv : ∀ m ∈ ms, ValidObj m)
    (hS : S = nlStream ms ∨ S = catStream ms)
    (hbs : S.length ≤ bufsz)
    (hcs : cs.flatten = S) :
    (processAll (initParser bufsz) cs).1 = ms := by
  rcases hS with rfl | rfl
  · have hinv0 : InvNL ms 0 [] (initParser bufsz).buffer := by
      unfold InvNL
      refine ⟨0, Nat.zero_le _, by simp, Nat.zero_le _,
        Or.inr ⟨?_, ?_, ?_⟩⟩
      · simp [posNL, nlStream]
      · simp [initParser]
      · omega
    have h := runNL ms bufsz hv hbs cs 0 [] (initParser bufsz) rfl hinv0
      (by simpa using hcs)
    have h2 := InvNL_end ms _ _ h
    simpa using h2
  · have hinv0 : InvCat ms 0 [] (initParser bufsz).buffer := by
      unfold InvCat
      refine ⟨0, Nat.zero_le _, by simp, Nat.zero_le _, ?_, ?_, ?_⟩
      · simp [posCat, catStream]
      · simp [initParser]
      · rcases Nat.eq_zero_or_pos ms.length with h0 | h1
        · left; omega
        · rcases hdk : ms.drop 0 with _ | ⟨m, L2⟩
          · rw [List.drop_zero] at hdk
            subst hdk
            left; rfl
          · right
            have hnl : nextLen ms 0 = m.length := by
              simp [nextLen, hdk]
            have hmne : m ≠ [] := by
              refine ObjScanOK_ne_nil m (hv m ?_).1
              rw [List.drop_zero] at hdk
              exact hdk ▸ List.mem_cons_self m L2
            have hml : 0 < m.length := by
              rcases m with _ | ⟨b, r⟩
              · exact absurd rfl hmne
              · simp
            omega
    have h := runCat ms bufsz hv hbs cs 0 [] (initParser bufsz) rfl hinv0
      (by simpa using hcs)
    have h2 := InvCat_end ms _ _ h
    simpa using h2

theorem C1_chunking_agreement_witness :
    (∀ m ∈ [[123,34,97,34,58,49,125],[123,34,98,34,58,50,125]],
      ValidObj m) ∧
    (processAll (initParser 64)
        (([123,34,97,34,58,49,125] ++
          [123,34,98,34,58,50,125]).map (fun b => [b]))).1 =
      [[123,34,97,34,58,49,125],[123,34,98,34,58,50,125]] :=
  ⟨by decide,
   C1_chunking_agreement
     [[123,34,97,34,58,49,125],[123,34,98,34,58,50,125]] 64
     (catStream [[123,34,97,34,58,49,125],[123,34,98,34,58,50,125]])
     (([123,34,97,34,58,49,125] ++
       [123,34,98,34,58,50,125]).map (fun b => [b]))
     (by decide) (Or.inr rfl) (by decide) (by decide)⟩
